import Mathlib

/-!
Verification development for the `postpredict` repository.

The Python source is shallowly embedded: polars dataframes become lists of
named rational-valued columns (for the wide per-group frames handled by
`TimeDependencePostprocessor._apply_shuffle`) or lists of row records (for the
long forecast tables handled by `_pivot_horizon` / `transform`), numpy arrays
become lists of lists of rationals, and every draw from a random source is
passed in explicitly as a list of rational draw values.  Fallible operations
return `Except`.
-/

/-! ### util.argsort_random_tiebreak

`src/postpredict/util.py` defines `argsort_random_tiebreak(arr)`: it draws
`len(arr)` fresh values from the ambient global stream `np.random.random` and
argsorts the structured pairs `(arr[i], random[i])` lexicographically.  The
ambient global stream is made explicit here as the `npRandomGlobal` argument;
the function has no `rng` parameter (see `utilArgsortParams` below).
-/

/-- Lexicographic comparison of the structured keys `(values, random)` used by
`np.argsort(structured_array, order=("values", "random"))`. -/
def argle (arr npRandomGlobal : List ℚ) (i j : ℕ) : Prop :=
  arr.getD i 0 < arr.getD j 0 ∨
    (arr.getD i 0 = arr.getD j 0 ∧ npRandomGlobal.getD i 0 ≤ npRandomGlobal.getD j 0)

instance argleDecidable (arr npRandomGlobal : List ℚ) : DecidableRel (argle arr npRandomGlobal) :=
  fun i j => inferInstanceAs (Decidable (arr.getD i 0 < arr.getD j 0 ∨
    (arr.getD i 0 = arr.getD j 0 ∧ npRandomGlobal.getD i 0 ≤ npRandomGlobal.getD j 0)))

/-- Embedding of `util.argsort_random_tiebreak`: indices `0..len(arr)-1` sorted
by the key `(arr[i], random[i])` (a stable sort, one legitimate refinement of
`np.argsort`, whose order among fully tied keys is unspecified).  The tie-break
draw comes from the ambient global `np.random` stream, passed explicitly as
`npRandomGlobal`. -/
def argsort_random_tiebreak (arr npRandomGlobal : List ℚ) : List ℕ :=
  (List.range arr.length).insertionSort (argle arr npRandomGlobal)

/-- The parameter list of `util.argsort_random_tiebreak` as defined in
`src/postpredict/util.py` (line 4): a single positional parameter `arr`. -/
def utilArgsortParams : List String := ["arr"]

/-- The keyword arguments supplied at the call site
`dependence.py` line 176 (`argsort_random_tiebreak(templates[:, i], rng = self.rng)`)
and by the tests in `tests/postpredict/test_argsort_random_tiebreak.py`. -/
def argsortCallKwargs : List String := ["rng"]

/-- Python keyword-argument binding succeeds only when every keyword names a
parameter of the callee; otherwise the call raises `TypeError`. -/
def pythonKwargsBind (params kwargs : List String) : Bool :=
  kwargs.all (fun kw => params.contains kw)

/-! ### TimeDependencePostprocessor._apply_shuffle

A wide per-group frame is a list of named columns.  `_apply_shuffle` first
evaluates the dict comprehension `col_orderings` (dependence.py lines
175-178), which makes one call
`argsort_random_tiebreak(templates[:, i], rng=self.rng)` per value column.
Because `util.argsort_random_tiebreak` has no `rng` parameter, the first call
of a non-empty comprehension raises `TypeError`, so `_apply_shuffle` returns
no frame at all; the embedding is therefore `Except`-valued, with the keyword
binding checked exactly as Python does.  Were the binding accepted, the
comprehension would produce the tie-broken argsort of each template matrix
column, and the `for c in value_cols` loop would then replace each value
column by its ascending sort scatter-assigned at the positions given by the
ordering (`shuffled_wmo[col_orderings[c], c] = shuffled_wmo[c]`); that loop
is embedded separately (`shuffleLoop`) so the would-be output can be
reasoned about.
-/

/-- A polars dataframe in "semi-wide" form: named rational columns. -/
abbrev Frame := List (String × List ℚ)

/-- Column lookup (`wide_model_out[c]`); polars column names are unique. -/
def getCol (f : Frame) (c : String) : List ℚ :=
  ((f.find? (fun p => p.1 == c)).map Prod.snd).getD []

/-- Replace the contents of column `c` (`with_columns` on an existing name). -/
def setCol (f : Frame) (c : String) (v : List ℚ) : Frame :=
  f.map (fun p => if p.1 = c then (p.1, v) else p)

/-- Column `i` of the numpy template matrix (`templates[:, i]`), rows given as
a list of row lists. -/
def tmplColumn (templates : List (List ℚ)) (i : ℕ) : List ℚ :=
  templates.map (fun row => row.getD i 0)

/-- Ascending sort of a column (`pl.col(c).sort()`). -/
def sortColumn (v : List ℚ) : List ℚ :=
  v.insertionSort (fun a b => a ≤ b)

/-- The vectorised positional assignment `df[indices, c] = values`: the `k`-th
index receives the `k`-th value. -/
def scatterAssign : List ℚ → List ℕ → List ℚ → List ℚ
  | base, _, [] => base
  | base, [], _ => base
  | base, i :: is, x :: xs => scatterAssign (base.set i x) is xs

/-- The error raised by `argsort_random_tiebreak(templates[:, i], rng=self.rng)`:
the keyword `rng` does not bind against the callee's sole parameter `arr`. -/
def argsortTypeError : String :=
  "TypeError: argsort_random_tiebreak() got an unexpected keyword argument rng"

/-- The dictionary the `col_orderings` comprehension would produce were its
keyword binding accepted: for the `i`-th value column `c`, the tie-broken
argsort of template column `i`.  Each call to `argsort_random_tiebreak`
consumes a fresh block of tie-break draws, modelled by `rnds i`. -/
def colOrderingsDrawn (value_cols : List String) (templates : List (List ℚ))
    (rnds : ℕ → List ℚ) : List (String × List ℕ) :=
  (List.range value_cols.length).map
    (fun i => (value_cols.getD i "", argsort_random_tiebreak (tmplColumn templates i) (rnds i)))

/-- The `col_orderings` dict comprehension as executed: one
`argsort_random_tiebreak(templates[:, i], rng=self.rng)` call per value
column, each binding the keyword `rng` against `util.argsort_random_tiebreak`'s
parameter list `(arr)`.  An empty comprehension makes no call; otherwise the
first failing binding raises `TypeError` and no dictionary is produced. -/
def colOrderings (value_cols : List String) (templates : List (List ℚ))
    (rnds : ℕ → List ℚ) : Except String (List (String × List ℕ)) :=
  if value_cols = [] then .ok []
  else if pythonKwargsBind utilArgsortParams argsortCallKwargs
  then .ok (colOrderingsDrawn value_cols templates rnds)
  else .error argsortTypeError

/-- Dictionary lookup `col_orderings[c]`. -/
def lookupOrdering (os : List (String × List ℕ)) (c : String) : List ℕ :=
  ((os.find? (fun p => p.1 == c)).map Prod.snd).getD []

/-- The `for c in value_cols` loop of `_apply_shuffle`: sort column `c`, then
scatter the sorted values at the positions `col_orderings[c]`. -/
def shuffleLoop : Frame → List String → (String → List ℕ) → Frame
  | f, [], _ => f
  | f, c :: cs, ords =>
      shuffleLoop
        (setCol f c (scatterAssign (sortColumn (getCol f c)) (ords c) (sortColumn (getCol f c))))
        cs ords

/-- Embedding of `TimeDependencePostprocessor._apply_shuffle`: evaluate the
`col_orderings` comprehension — which raises `TypeError` for every non-empty
`value_cols` — and only on success run the sort-and-scatter loop. -/
def apply_shuffle (wmo : Frame) (value_cols : List String)
    (templates : List (List ℚ)) (rnds : ℕ → List ℚ) : Except String Frame :=
  match colOrderings value_cols templates rnds with
  | .error e => .error e
  | .ok cos => .ok (shuffleLoop wmo value_cols (lookupOrdering cos))

/-- The net effect of `_apply_shuffle` on one value column: sort ascending,
then scatter the sorted values at the ordered positions. -/
def shuffleColumn (v tcol rnd : List ℚ) : List ℚ :=
  scatterAssign (sortColumn v) (argsort_random_tiebreak tcol rnd) (sortColumn v)

/-! ### Basic lemmas about the building blocks -/

theorem length_scatterAssign : ∀ (base : List ℚ) (ord : List ℕ) (xs : List ℚ),
    (scatterAssign base ord xs).length = base.length
  | _, _, [] => by cases ‹List ℕ› <;> rfl
  | _, [], _ :: _ => rfl
  | base, i :: is, x :: xs => by
      rw [scatterAssign, length_scatterAssign, List.length_set]

theorem scatterAssign_getElem?_of_not_mem :
    ∀ (base : List ℚ) (ord : List ℕ) (xs : List ℚ) (i : ℕ), i ∉ ord →
      (scatterAssign base ord xs)[i]? = base[i]?
  | _, ord, [], _, _ => by cases ord <;> rfl
  | _, [], _ :: _, _, _ => rfl
  | base, j :: js, x :: xs, i, hi => by
      rw [scatterAssign, scatterAssign_getElem?_of_not_mem (base.set j x) js xs i
          (fun hm => hi (List.mem_cons_of_mem _ hm))]
      exact List.getElem?_set_ne (fun hji => hi (by rw [← hji]; exact List.mem_cons_self j js))

theorem scatterAssign_getElem? :
    ∀ (base : List ℚ) (ord : List ℕ) (xs : List ℚ), ord.Nodup →
      ∀ (k : ℕ) (hk : k < ord.length) (hkx : k < xs.length), ord[k] < base.length →
      (scatterAssign base ord xs)[ord[k]]? = some xs[k]
  | base, j :: js, x :: xs, hnd, 0, hk, hkx, hlt => by
      rw [scatterAssign]
      simp only [List.getElem_cons_zero] at hlt ⊢
      rw [scatterAssign_getElem?_of_not_mem (base.set j x) js xs j
        (by simpa using (List.nodup_cons.mp hnd).1)]
      exact List.getElem?_set_self hlt
  | base, j :: js, x :: xs, hnd, k + 1, hk, hkx, hlt => by
      rw [scatterAssign]
      have := scatterAssign_getElem? (base.set j x) js xs (List.nodup_cons.mp hnd).2 k
        (by simpa using hk) (by simpa using hkx)
        (by simpa using hlt)
      simpa using this

/-- Reading every position of a list through `getD` reproduces the list. -/
theorem map_getD_range {α β : Type} (f : α → β) :
    ∀ (l : List α) (d : α), (List.range l.length).map (fun i => f (l.getD i d)) = l.map f
  | [], _ => rfl
  | a :: l, d => by
      rw [List.length_cons, List.range_succ_eq_map, List.map_cons, List.map_map]
      simp only [List.getD_cons_zero, Function.comp_def, List.getD_cons_succ, List.map_cons]
      rw [map_getD_range f l d]

theorem getD_range_self : ∀ (l : List ℚ), (List.range l.length).map (fun i => l.getD i 0) = l := by
  intro l
  have := map_getD_range (id : ℚ → ℚ) l 0
  simpa using this

/-- A list's `getD` agrees with `getElem` in bounds. -/
theorem getD_eq_getElem_of_lt {α : Type} (l : List α) (d : α) {i : ℕ} (hi : i < l.length) :
    l.getD i d = l[i] := by
  rw [List.getD_eq_getElem?_getD, List.getElem?_eq_getElem hi, Option.getD_some]

/-- Scatter-assigning `xs` at the positions of a permutation of `0..n-1`
produces a permutation of `xs`. -/
theorem scatterAssign_perm (base : List ℚ) (ord : List ℕ) (xs : List ℚ)
    (hperm : ord.Perm (List.range base.length)) (hlen : xs.length = base.length) :
    (scatterAssign base ord xs).Perm xs := by
  have hnd : ord.Nodup := hperm.nodup_iff.mpr (List.nodup_range _)
  have hordlen : ord.length = base.length := by simpa using hperm.length_eq
  have hmem : ∀ i ∈ ord, i < base.length := by
    intro i hi
    have := hperm.mem_iff.mp hi
    simpa using this
  have hout_len : (scatterAssign base ord xs).length = base.length := length_scatterAssign _ _ _
  have hmap : ord.map (fun i => (scatterAssign base ord xs).getD i 0) = xs := by
    apply List.ext_getElem
    · simp [hordlen, hlen]
    · intro k hk1 hk2
      have hkord : k < ord.length := by simpa using hk1
      have hlt : ord[k] < base.length := hmem _ (List.getElem_mem hkord)
      have hlt2 : ord[k] < (scatterAssign base ord xs).length := by
        rw [hout_len]; exact hlt
      have hsome := scatterAssign_getElem? base ord xs hnd k hkord hk2 hlt
      rw [List.getElem?_eq_getElem hlt2] at hsome
      simp only [List.getElem_map]
      rw [getD_eq_getElem_of_lt _ _ hlt2]
      exact Option.some.inj hsome
  have hself : (List.range base.length).map (fun i => (scatterAssign base ord xs).getD i 0)
      = scatterAssign base ord xs := by
    have := getD_range_self (scatterAssign base ord xs)
    rw [hout_len] at this
    exact this
  have hp : (ord.map (fun i => (scatterAssign base ord xs).getD i 0)).Perm
      ((List.range base.length).map (fun i => (scatterAssign base ord xs).getD i 0)) :=
    hperm.map _
  rw [hself, hmap] at hp
  exact hp.symm

/-! ### Properties of the tie-broken argsort and of column sorting -/

theorem argsort_perm_range (arr rnd : List ℚ) :
    (argsort_random_tiebreak arr rnd).Perm (List.range arr.length) :=
  List.perm_insertionSort _ _

theorem argsort_length (arr rnd : List ℚ) :
    (argsort_random_tiebreak arr rnd).length = arr.length := by
  simpa using (argsort_perm_range arr rnd).length_eq

theorem argle_trans (arr rnd : List ℚ) (a b c : ℕ) :
    argle arr rnd a b → argle arr rnd b c → argle arr rnd a c := by
  rintro (h1 | ⟨h1e, h1r⟩) (h2 | ⟨h2e, h2r⟩)
  · exact Or.inl (h1.trans h2)
  · exact Or.inl (h2e ▸ h1)
  · exact Or.inl (h1e ▸ h2)
  · exact Or.inr ⟨h1e.trans h2e, h1r.trans h2r⟩

theorem argle_total (arr rnd : List ℚ) (a b : ℕ) :
    argle arr rnd a b ∨ argle arr rnd b a := by
  rcases lt_trichotomy (arr.getD a 0) (arr.getD b 0) with h | h | h
  · exact Or.inl (Or.inl h)
  · rcases le_total (rnd.getD a 0) (rnd.getD b 0) with hr | hr
    · exact Or.inl (Or.inr ⟨h, hr⟩)
    · exact Or.inr (Or.inr ⟨h.symm, hr⟩)
  · exact Or.inr (Or.inl h)

theorem argsort_pairwise (arr rnd : List ℚ) :
    (argsort_random_tiebreak arr rnd).Pairwise (argle arr rnd) := by
  haveI : IsTotal ℕ (argle arr rnd) := ⟨argle_total arr rnd⟩
  haveI : IsTrans ℕ (argle arr rnd) := ⟨argle_trans arr rnd⟩
  exact List.sorted_insertionSort (argle arr rnd) (List.range arr.length)

theorem sortColumn_perm (v : List ℚ) : (sortColumn v).Perm v :=
  List.perm_insertionSort _ v

theorem sortColumn_length (v : List ℚ) : (sortColumn v).length = v.length :=
  (sortColumn_perm v).length_eq

theorem sortColumn_pairwise (v : List ℚ) :
    (sortColumn v).Pairwise (fun a b => a ≤ b) := by
  haveI : IsTotal ℚ (fun a b : ℚ => a ≤ b) := ⟨le_total⟩
  haveI : IsTrans ℚ (fun a b : ℚ => a ≤ b) := ⟨fun _ _ _ h1 h2 => h1.trans h2⟩
  exact List.sorted_insertionSort (fun a b : ℚ => a ≤ b) v

theorem shuffleColumn_length (v tcol rnd : List ℚ) :
    (shuffleColumn v tcol rnd).length = v.length := by
  rw [shuffleColumn, length_scatterAssign, sortColumn_length]

/-- One column's worth of `_apply_shuffle` is a permutation of the original
column, provided the template matrix has one row per sample. -/
theorem shuffleColumn_perm (v tcol rnd : List ℚ) (hlen : tcol.length = v.length) :
    (shuffleColumn v tcol rnd).Perm v := by
  have h1 : (argsort_random_tiebreak tcol rnd).Perm (List.range (sortColumn v).length) := by
    rw [sortColumn_length, ← hlen]
    exact argsort_perm_range tcol rnd
  exact (scatterAssign_perm _ _ _ h1 rfl).trans (sortColumn_perm v)

/-- Rank matching for one column: a strictly smaller template value receives a
value no larger than the one received by a strictly larger template value. -/
theorem shuffleColumn_rank (v tcol rnd : List ℚ) (hlen : tcol.length = v.length)
    (A B : ℕ) (hA : A < v.length) (hB : B < v.length)
    (ht : tcol.getD A 0 < tcol.getD B 0) :
    (shuffleColumn v tcol rnd).getD A 0 ≤ (shuffleColumn v tcol rnd).getD B 0 := by
  set ord := argsort_random_tiebreak tcol rnd with hord
  set base := sortColumn v with hbase
  have hordperm : ord.Perm (List.range v.length) := by
    rw [hord, ← hlen]; exact argsort_perm_range tcol rnd
  have hordnd : ord.Nodup := hordperm.nodup_iff.mpr (List.nodup_range _)
  have hordlen : ord.length = v.length := by simpa using hordperm.length_eq
  have hbaselen : base.length = v.length := sortColumn_length v
  have hmemA : A ∈ ord := hordperm.mem_iff.mpr (List.mem_range.mpr hA)
  have hmemB : B ∈ ord := hordperm.mem_iff.mpr (List.mem_range.mpr hB)
  have hpA : List.indexOf A ord < ord.length := List.indexOf_lt_length.mpr hmemA
  have hpB : List.indexOf B ord < ord.length := List.indexOf_lt_length.mpr hmemB
  have hgetA : ord[List.indexOf A ord] = A := List.getElem_indexOf hpA
  have hgetB : ord[List.indexOf B ord] = B := List.getElem_indexOf hpB
  have hout : ∀ (k : ℕ) (hk : k < ord.length),
      (shuffleColumn v tcol rnd).getD ord[k] 0 = base.getD k 0 := by
    intro k hk
    have hkx : k < base.length := by omega
    have hlt : ord[k] < base.length := by
      have := hordperm.mem_iff.mp (List.getElem_mem hk)
      rw [hbaselen]
      simpa using this
    have hsome := scatterAssign_getElem? base ord base hordnd k hk hkx hlt
    have hlt2 : ord[k] < (shuffleColumn v tcol rnd).length := by
      rw [shuffleColumn_length]; omega
    rw [shuffleColumn, ← hbase, ← hord] at hlt2 ⊢
    rw [getD_eq_getElem_of_lt _ _ hlt2, getD_eq_getElem_of_lt _ _ hkx]
    rw [List.getElem?_eq_getElem hlt2] at hsome
    exact Option.some.inj hsome
  have hAB : List.indexOf A ord < List.indexOf B ord := by
    rcases lt_trichotomy (List.indexOf A ord) (List.indexOf B ord) with h | h | h
    · exact h
    · exfalso
      have h1 : ord[List.indexOf A ord]? = some A := by
        rw [List.getElem?_eq_getElem hpA, hgetA]
      have h2 : ord[List.indexOf B ord]? = some B := by
        rw [List.getElem?_eq_getElem hpB, hgetB]
      rw [h, h2] at h1
      have hAB : A = B := (Option.some.inj h1).symm
      rw [hAB] at ht
      exact lt_irrefl _ ht
    · exfalso
      have hpw := (List.pairwise_iff_getElem.mp (argsort_pairwise tcol rnd))
        (List.indexOf B ord) (List.indexOf A ord) hpB hpA h
      rw [hgetA, hgetB] at hpw
      rcases hpw with hlt' | ⟨heq, _⟩
      · exact absurd (ht.trans hlt') (lt_irrefl _)
      · rw [heq] at ht
        exact lt_irrefl _ ht
  have hsorted := (List.pairwise_iff_getElem.mp (sortColumn_pairwise v))
    (List.indexOf A ord) (List.indexOf B ord)
    (by rw [sortColumn_length]; omega) (by rw [sortColumn_length]; omega) hAB
  have hA' := hout (List.indexOf A ord) hpA
  have hB' := hout (List.indexOf B ord) hpB
  rw [hgetA] at hA'
  rw [hgetB] at hB'
  rw [hA', hB']
  rw [getD_eq_getElem_of_lt base 0 (by omega : List.indexOf A ord < base.length),
    getD_eq_getElem_of_lt base 0 (by omega : List.indexOf B ord < base.length)]
  exact hsorted

/-! ### Frame-level lemmas for `_apply_shuffle` -/

theorem scatterAssign_nil_base : ∀ (ord : List ℕ) (xs : List ℚ),
    scatterAssign [] ord xs = []
  | ord, [] => by cases ord <;> rfl
  | [], _ :: _ => rfl
  | i :: is, x :: xs => by
      rw [scatterAssign, List.set_nil, scatterAssign_nil_base]

theorem setCol_map_fst (f : Frame) (c : String) (v : List ℚ) :
    (setCol f c v).map Prod.fst = f.map Prod.fst := by
  induction f with
  | nil => rfl
  | cons p f ih =>
      rw [setCol, List.map_cons, List.map_cons, List.map_cons, ← setCol, ih]
      by_cases hp : p.1 = c
      · simp [hp]
      · simp [hp]

theorem getCol_eq_nil_of_not_mem (f : Frame) (c : String)
    (hc : c ∉ f.map Prod.fst) : getCol f c = [] := by
  rw [getCol]
  have : f.find? (fun p => p.1 == c) = none := by
    rw [List.find?_eq_none]
    intro p hp hfalse
    exact hc (List.mem_map.mpr ⟨p, hp, by simpa using hfalse⟩)
  rw [this]
  rfl

theorem setCol_of_not_mem (f : Frame) (c : String) (v : List ℚ)
    (hc : c ∉ f.map Prod.fst) : setCol f c v = f := by
  induction f with
  | nil => rfl
  | cons p f ih =>
      simp only [List.map_cons, List.mem_cons, not_or] at hc
      rw [setCol, List.map_cons, ← setCol, ih hc.2, if_neg (fun h : p.1 = c => hc.1 h.symm)]

theorem getCol_setCol_self (f : Frame) (c : String) (v : List ℚ)
    (hc : c ∈ f.map Prod.fst) : getCol (setCol f c v) c = v := by
  induction f with
  | nil => simp at hc
  | cons p f ih =>
      by_cases hp : p.1 = c
      · rw [setCol, List.map_cons, if_pos hp, getCol, List.find?_cons_of_pos _ (by simpa using hp)]
        rfl
      · simp only [List.map_cons, List.mem_cons] at hc
        rcases hc with hc | hc
        · exact absurd hc.symm hp
        · rw [setCol, List.map_cons, if_neg hp, getCol,
            List.find?_cons_of_neg _ (by simpa using hp), ← getCol, ← setCol, ih hc]

theorem getCol_setCol_ne (f : Frame) (c c' : String) (v : List ℚ)
    (hcc : c' ≠ c) : getCol (setCol f c v) c' = getCol f c' := by
  induction f with
  | nil => rfl
  | cons p f ih =>
      by_cases hp : p.1 = c
      · rw [setCol, List.map_cons, if_pos hp, getCol,
          List.find?_cons_of_neg _ (by
            simp only [beq_iff_eq, hp]
            exact fun h : c = c' => hcc h.symm), getCol,
          List.find?_cons_of_neg _ (by
            simp only [beq_iff_eq, hp]
            exact fun h : c = c' => hcc h.symm)]
        rw [← getCol, ← getCol, ← setCol, ih]
      · rw [setCol, List.map_cons, if_neg hp, ← setCol]
        by_cases hp' : p.1 = c'
        · rw [getCol, List.find?_cons_of_pos _ (by simpa using hp'), getCol,
            List.find?_cons_of_pos _ (by simpa using hp')]
        · rw [getCol, List.find?_cons_of_neg _ (by simpa using hp'), getCol,
            List.find?_cons_of_neg _ (by simpa using hp')]
          rw [← getCol, ← getCol, ih]

theorem shuffleLoop_map_fst (ords : String → List ℕ) :
    ∀ (cs : List String) (f : Frame),
      (shuffleLoop f cs ords).map Prod.fst = f.map Prod.fst
  | [], _ => rfl
  | c :: cs, f => by
      rw [shuffleLoop, shuffleLoop_map_fst ords cs, setCol_map_fst]

theorem getCol_shuffleLoop_not_mem (ords : String → List ℕ) (c : String) :
    ∀ (cs : List String) (f : Frame), c ∉ cs →
      getCol (shuffleLoop f cs ords) c = getCol f c
  | [], _, _ => rfl
  | c' :: cs, f, hc => by
      rw [shuffleLoop, getCol_shuffleLoop_not_mem ords c cs _
          (fun hm => hc (List.mem_cons_of_mem _ hm)),
        getCol_setCol_ne _ _ _ _ (fun he => hc (by rw [he]; exact List.mem_cons_self c' cs))]

theorem shuffleLoop_perm_col (ords : String → List ℕ) (N : ℕ) (c : String) :
    ∀ (cs : List String) (f : Frame),
      (∀ c' ∈ cs, (ords c').Perm (List.range N)) →
      (getCol f c).length = N →
      (getCol (shuffleLoop f cs ords) c).Perm (getCol f c)
  | [], f, _, _ => List.Perm.refl _
  | c' :: cs, f, hords, hN => by
      rw [shuffleLoop]
      by_cases hcc : c' = c
      · subst hcc
        by_cases hmem : c' ∈ f.map Prod.fst
        · have hset := getCol_setCol_self f c'
            (scatterAssign (sortColumn (getCol f c')) (ords c') (sortColumn (getCol f c'))) hmem
          have hscat : (scatterAssign (sortColumn (getCol f c')) (ords c')
              (sortColumn (getCol f c'))).Perm (getCol f c') := by
            refine (scatterAssign_perm _ _ _ ?_ rfl).trans (sortColumn_perm _)
            rw [sortColumn_length, hN]
            exact hords c' (List.mem_cons_self _ _)
          have ih := shuffleLoop_perm_col ords N c' cs
            (setCol f c' (scatterAssign (sortColumn (getCol f c')) (ords c')
              (sortColumn (getCol f c'))))
            (fun c'' hc'' => hords c'' (List.mem_cons_of_mem _ hc''))
            (by rw [hset, length_scatterAssign, sortColumn_length, hN])
          rw [hset] at ih
          exact ih.trans hscat
        · rw [setCol_of_not_mem _ _ _ hmem]
          exact shuffleLoop_perm_col ords N c' cs f
            (fun c'' hc'' => hords c'' (List.mem_cons_of_mem _ hc'')) hN
      · have hcol := getCol_setCol_ne f c' c
          (scatterAssign (sortColumn (getCol f c')) (ords c') (sortColumn (getCol f c')))
          (fun he => hcc he.symm)
        have ih := shuffleLoop_perm_col ords N c cs
          (setCol f c' (scatterAssign (sortColumn (getCol f c')) (ords c')
            (sortColumn (getCol f c'))))
          (fun c'' hc'' => hords c'' (List.mem_cons_of_mem _ hc''))
          (by rw [hcol, hN])
        rw [hcol] at ih
        exact ih

theorem getCol_shuffleLoop_of_nodup (ords : String → List ℕ) (c : String) :
    ∀ (cs : List String) (f : Frame), cs.Nodup → c ∈ cs →
      getCol (shuffleLoop f cs ords) c
        = scatterAssign (sortColumn (getCol f c)) (ords c) (sortColumn (getCol f c))
  | [], _, _, hc => absurd hc (List.not_mem_nil c)
  | c' :: cs, f, hnd, hc => by
      rw [shuffleLoop]
      by_cases hcc : c' = c
      · subst hcc
        have hc'cs : c' ∉ cs := (List.nodup_cons.mp hnd).1
        rw [getCol_shuffleLoop_not_mem ords c' cs _ hc'cs]
        by_cases hmem : c' ∈ f.map Prod.fst
        · exact getCol_setCol_self f c' _ hmem
        · rw [setCol_of_not_mem _ _ _ hmem, getCol_eq_nil_of_not_mem f c' hmem]
          rw [sortColumn]
          show ([] : List ℚ) = scatterAssign [] (ords c') []
          rw [scatterAssign_nil_base]
      · have hccs : c ∈ cs := by
          rcases List.mem_cons.mp hc with h | h
          · exact absurd h.symm hcc
          · exact h
        rw [getCol_shuffleLoop_of_nodup ords c cs _ (List.nodup_cons.mp hnd).2 hccs,
          getCol_setCol_ne _ _ _ _ (fun he => hcc he.symm)]

theorem lookupOrdering_colOrderings (vcs : List String) (tmpl : List (List ℚ))
    (rnds : ℕ → List ℚ) (c : String) (hc : c ∈ vcs) :
    ∃ i, i < vcs.length ∧ vcs.getD i "" = c ∧
      lookupOrdering (colOrderingsDrawn vcs tmpl rnds) c
        = argsort_random_tiebreak (tmplColumn tmpl i) (rnds i) := by
  rw [lookupOrdering, colOrderingsDrawn, List.find?_map]
  have hsome : ((List.range vcs.length).find?
      ((fun p : String × List ℕ => p.1 == c) ∘
        (fun i => (vcs.getD i "", argsort_random_tiebreak (tmplColumn tmpl i) (rnds i))))).isSome := by
    rw [List.find?_isSome]
    obtain ⟨i, hi, hgi⟩ := List.mem_iff_getElem.mp hc
    refine ⟨i, List.mem_range.mpr hi, ?_⟩
    simp only [Function.comp_apply, beq_iff_eq]
    rw [getD_eq_getElem_of_lt vcs "" hi]
    exact hgi
  obtain ⟨i0, hfind⟩ := Option.isSome_iff_exists.mp hsome
  have hi0mem := List.mem_of_find?_eq_some hfind
  have hi0p := List.find?_some hfind
  simp only [Function.comp_apply, beq_iff_eq] at hi0p
  refine ⟨i0, List.mem_range.mp hi0mem, hi0p, ?_⟩
  rw [hfind]
  rfl

/-! ### Claim theorems about `_apply_shuffle` and `argsort_random_tiebreak` -/

theorem apply_shuffle_error (wmo : Frame) (vcs : List String)
    (tmpl : List (List ℚ)) (rnds : ℕ → List ℚ) (hvcs : vcs ≠ []) :
    apply_shuffle wmo vcs tmpl rnds = .error argsortTypeError := by
  rw [apply_shuffle, colOrderings, if_neg hvcs]
  rfl

/-- C1 (code bug): the permutation invariant speaks of the frame
`_apply_shuffle` returns, but for every non-empty `value_cols` the function
raises `TypeError` at the `col_orderings` comprehension (the `rng` keyword
does not bind against `argsort_random_tiebreak`'s sole parameter `arr`,
util.py line 4 versus dependence.py line 176) and never returns a frame.
The sort-and-scatter loop run on the drawn orderings — the frame the code
would return — does preserve each value column's multiset of values, so the
invariant fails only through the crash. -/
theorem apply_shuffle_typeerror_value_col_permutation (wmo : Frame) (vcs : List String)
    (tmpl : List (List ℚ)) (rnds : ℕ → List ℚ) (c : String)
    (hc : c ∈ vcs) (hlen : (getCol wmo c).length = tmpl.length) :
    apply_shuffle wmo vcs tmpl rnds = .error argsortTypeError
    ∧ (getCol (shuffleLoop wmo vcs (lookupOrdering (colOrderingsDrawn vcs tmpl rnds))) c).Perm
        (getCol wmo c) := by
  refine ⟨apply_shuffle_error wmo vcs tmpl rnds (List.ne_nil_of_mem hc), ?_⟩
  refine shuffleLoop_perm_col _ tmpl.length c vcs wmo ?_ hlen
  intro c' hc'
  obtain ⟨i, hi, hgi, heq⟩ := lookupOrdering_colOrderings vcs tmpl rnds c' hc'
  rw [heq]
  have h := argsort_perm_range (tmplColumn tmpl i) (rnds i)
  simpa [tmplColumn] using h

theorem apply_shuffle_typeerror_value_col_permutation_witness :
    ("h1" ∈ (["h1"] : List String)
      ∧ (getCol [("h1", [5, 3])] "h1").length = ([[1], [2]] : List (List ℚ)).length)
    ∧ (apply_shuffle [("h1", [5, 3])] ["h1"] [[1], [2]] (fun _ => [0, 0])
        = .error argsortTypeError
      ∧ (getCol (shuffleLoop [("h1", [5, 3])] ["h1"]
            (lookupOrdering (colOrderingsDrawn ["h1"] [[1], [2]] (fun _ => [0, 0])))) "h1").Perm
          (getCol [("h1", [5, 3])] "h1")) :=
  ⟨⟨by decide, by decide⟩,
    apply_shuffle_typeerror_value_col_permutation _ _ _ _ _ (by decide) (by decide)⟩

/-- C2 (code bug): rank matching speaks of the frame `_apply_shuffle`
returns, but with a non-empty `value_cols` the function raises `TypeError`
at the `col_orderings` comprehension (the `rng` keyword does not bind,
util.py line 4 versus dependence.py line 176) and never returns a frame.
In the frame the sort-and-scatter loop would return, a strictly smaller
template value in the `i`-th value column does place a value at most as
large in that row (ties in template values are broken by the random draw
and carry no ordering guarantee, which is why strict template inequality is
required); the property fails only through the crash. -/
theorem apply_shuffle_typeerror_rank_matching (wmo : Frame) (vcs : List String)
    (tmpl : List (List ℚ)) (rnds : ℕ → List ℚ) (c : String) (i A B : ℕ)
    (hnd : vcs.Nodup) (hi : i < vcs.length) (hgi : vcs.getD i "" = c)
    (hlen : tmpl.length = (getCol wmo c).length)
    (hA : A < (getCol wmo c).length) (hB : B < (getCol wmo c).length)
    (ht : (tmpl.getD A []).getD i 0 < (tmpl.getD B []).getD i 0) :
    apply_shuffle wmo vcs tmpl rnds = .error argsortTypeError
    ∧ (getCol (shuffleLoop wmo vcs (lookupOrdering (colOrderingsDrawn vcs tmpl rnds))) c).getD A 0
      ≤ (getCol (shuffleLoop wmo vcs (lookupOrdering (colOrderingsDrawn vcs tmpl rnds))) c).getD B 0 := by
  have hc : c ∈ vcs := by
    rw [← hgi, getD_eq_getElem_of_lt vcs "" hi]
    exact List.getElem_mem hi
  refine ⟨apply_shuffle_error wmo vcs tmpl rnds (List.ne_nil_of_mem hc), ?_⟩
  rw [getCol_shuffleLoop_of_nodup _ c vcs wmo hnd hc]
  obtain ⟨i0, hi0, hgi0, heq⟩ := lookupOrdering_colOrderings vcs tmpl rnds c hc
  have hii : i0 = i := by
    have h1 : vcs[i0] = vcs[i] := by
      rw [← getD_eq_getElem_of_lt vcs "" hi0, ← getD_eq_getElem_of_lt vcs "" hi, hgi0, hgi]
    have h2 : (⟨i0, hi0⟩ : Fin vcs.length) = ⟨i, hi⟩ :=
      (List.nodup_iff_injective_getElem.mp hnd) h1
    simpa using h2
  rw [hii] at heq
  rw [heq]
  have hAt : A < tmpl.length := by omega
  have hBt : B < tmpl.length := by omega
  have ht' : (tmplColumn tmpl i).getD A 0 < (tmplColumn tmpl i).getD B 0 := by
    rw [tmplColumn,
      getD_eq_getElem_of_lt (tmpl.map (fun row => row.getD i 0)) 0 (by simpa using hAt),
      getD_eq_getElem_of_lt (tmpl.map (fun row => row.getD i 0)) 0 (by simpa using hBt)]
    simp only [List.getElem_map]
    rw [← getD_eq_getElem_of_lt tmpl [] hAt, ← getD_eq_getElem_of_lt tmpl [] hBt]
    exact ht
  have hlen' : (tmplColumn tmpl i).length = (getCol wmo c).length := by
    simp [tmplColumn, hlen]
  exact shuffleColumn_rank (getCol wmo c) (tmplColumn tmpl i) (rnds i) hlen' A B hA hB ht'

theorem apply_shuffle_typeerror_rank_matching_witness :
    ((["h1"] : List String).Nodup ∧ 0 < (["h1"] : List String).length
      ∧ (["h1"] : List String).getD 0 "" = "h1"
      ∧ ([[10], [20], [30]] : List (List ℚ)).length = (getCol [("h1", [3, 1, 2])] "h1").length
      ∧ 0 < (getCol [("h1", [3, 1, 2])] "h1").length
      ∧ 1 < (getCol [("h1", [3, 1, 2])] "h1").length
      ∧ (([[10], [20], [30]] : List (List ℚ)).getD 0 []).getD 0 0
          < (([[10], [20], [30]] : List (List ℚ)).getD 1 []).getD 0 0)
    ∧ (apply_shuffle [("h1", [3, 1, 2])] ["h1"] [[10], [20], [30]] (fun _ => [])
        = .error argsortTypeError
      ∧ (getCol (shuffleLoop [("h1", [3, 1, 2])] ["h1"]
            (lookupOrdering (colOrderingsDrawn ["h1"] [[10], [20], [30]] (fun _ => [])))) "h1").getD 0 0
        ≤ (getCol (shuffleLoop [("h1", [3, 1, 2])] ["h1"]
            (lookupOrdering (colOrderingsDrawn ["h1"] [[10], [20], [30]] (fun _ => [])))) "h1").getD 1 0) :=
  ⟨⟨by decide, by decide, by decide, by decide, by decide, by decide, by decide⟩,
    apply_shuffle_typeerror_rank_matching [("h1", [3, 1, 2])] ["h1"] [[10], [20], [30]] (fun _ => [])
      "h1" 0 0 1 (by decide) (by decide) (by decide) (by decide) (by decide) (by decide) (by decide)⟩

/-- C10 (code bug): the claim that `_apply_shuffle` leaves every column
outside `value_cols` exactly unchanged speaks of the frame it returns, but
with the non-empty `value_cols` of every real call the function raises
`TypeError` at the `col_orderings` comprehension (the `rng` keyword does not
bind, util.py line 4 versus dependence.py line 176) and returns no frame at
all.  The sort-and-scatter loop the code would then run does leave the
column names and every column outside `value_cols` unchanged row for row;
the claim fails only through the crash. -/
theorem apply_shuffle_typeerror_preserves_other_cols (wmo : Frame) (vcs : List String)
    (tmpl : List (List ℚ)) (rnds : ℕ → List ℚ) (c : String)
    (hvcs : vcs ≠ []) (hc : c ∉ vcs) :
    apply_shuffle wmo vcs tmpl rnds = .error argsortTypeError
    ∧ ((shuffleLoop wmo vcs (lookupOrdering (colOrderingsDrawn vcs tmpl rnds))).map Prod.fst
        = wmo.map Prod.fst)
    ∧ getCol (shuffleLoop wmo vcs (lookupOrdering (colOrderingsDrawn vcs tmpl rnds))) c
        = getCol wmo c := by
  refine ⟨apply_shuffle_error wmo vcs tmpl rnds hvcs, ?_, ?_⟩
  · exact shuffleLoop_map_fst _ vcs wmo
  · exact getCol_shuffleLoop_not_mem _ c vcs wmo hc

theorem apply_shuffle_typeerror_preserves_other_cols_witness :
    ((["h1"] : List String) ≠ [] ∧ "loc" ∉ (["h1"] : List String))
    ∧ (apply_shuffle [("loc", [7]), ("h1", [5])] ["h1"] [[1]] (fun _ => [])
        = .error argsortTypeError
      ∧ ((shuffleLoop [("loc", [7]), ("h1", [5])] ["h1"]
            (lookupOrdering (colOrderingsDrawn ["h1"] [[1]] (fun _ => [])))).map Prod.fst
          = ([("loc", [7]), ("h1", [5])] : Frame).map Prod.fst)
      ∧ getCol (shuffleLoop [("loc", [7]), ("h1", [5])] ["h1"]
            (lookupOrdering (colOrderingsDrawn ["h1"] [[1]] (fun _ => [])))) "loc"
          = getCol [("loc", [7]), ("h1", [5])] "loc") :=
  ⟨⟨by decide, by decide⟩,
    apply_shuffle_typeerror_preserves_other_cols [("loc", [7]), ("h1", [5])] ["h1"] [[1]]
      (fun _ => []) "loc" (by decide) (by decide)⟩

/-- C3: the claim that shuffle randomness comes only from the caller-supplied
generator fails on the code.  `util.argsort_random_tiebreak` accepts no `rng`
parameter (its only parameter is `arr`), so the calls
`argsort_random_tiebreak(..., rng=self.rng)` in `_apply_shuffle` and in the
tests raise `TypeError`; and its tie-break draw comes from the ambient global
stream `np.random.random`, so with identical inputs and identical
caller-supplied generators, two different ambient-stream states give two
different argsorts of a tied array. -/
theorem argsort_tiebreak_global_state_code_bug :
    pythonKwargsBind utilArgsortParams argsortCallKwargs = false
    ∧ argsort_random_tiebreak [1, 1] [0, 1] ≠ argsort_random_tiebreak [1, 1] [1, 0] := by
  constructor
  · rfl
  · decide

/-! ### Long forecast tables and TimeDependencePostprocessor._pivot_horizon

A long table row carries one unit-key value, a reference time, an integer
horizon, a sample id and a predicted value.  `_pivot_horizon` validates that
every (key, reference-time) group covers the global contiguous horizon range,
checks horizon counts, reassigns sample ids to dense consecutive blocks and
pivots the horizon column wide.  Horizon columns are identified here by their
horizon value (the `postpredict_{horizon_col}{h}` naming and its inverse
string slicing are abstracted to the integer index they encode).
-/

structure LongRow where
  key : ℤ
  t : ℤ
  h : ℤ
  s : ℤ
  v : ℚ
deriving DecidableEq, Repr

structure WideRow where
  key : ℤ
  t : ℤ
  s : ℤ
  vals : List ℚ
deriving DecidableEq, Repr

structure WideTable where
  minHorizon : ℤ
  numHorizons : ℕ
  rows : List WideRow
deriving DecidableEq, Repr

/-- The (key, reference-time) group of a long row. -/
def rowGroup (r : LongRow) : ℤ × ℤ := (r.key, r.t)

/-- All rows of one (key, reference-time) group. -/
def groupRows (lt : List LongRow) (g : ℤ × ℤ) : List LongRow :=
  lt.filter (fun r => decide (rowGroup r = g))

/-- All rows of one (key, reference-time) group at one horizon. -/
def groupHorizonRows (lt : List LongRow) (g : ℤ × ℤ) (hz : ℤ) : List LongRow :=
  lt.filter (fun r => decide (rowGroup r = g ∧ r.h = hz))

/-- Number of rows of a group at a horizon (`postpredict_horizon_count`). -/
def hCount (lt : List LongRow) (g : ℤ × ℤ) (hz : ℤ) : ℕ :=
  (groupHorizonRows lt g hz).length

/-- The distinct (key, reference-time) groups. -/
def pivotGroups (lt : List LongRow) : List (ℤ × ℤ) :=
  (lt.map rowGroup).dedup

/-- Minimum of a list of integers (`Series.min`), `0` on the empty list. -/
def intListMin : List ℤ → ℤ
  | [] => 0
  | [a] => a
  | a :: b :: rest => min a (intListMin (b :: rest))

/-- Maximum of a list of integers (`Series.max`), `0` on the empty list. -/
def intListMax : List ℤ → ℤ
  | [] => 0
  | [a] => a
  | a :: b :: rest => max a (intListMax (b :: rest))

def minHorizonOf (lt : List LongRow) : ℤ := intListMin (lt.map (fun r => r.h))

def maxHorizonOf (lt : List LongRow) : ℤ := intListMax (lt.map (fun r => r.h))

/-- `list(range(min_horizon, max_horizon + 1))`. -/
def horizonList (minh maxh : ℤ) : List ℤ :=
  (List.range (maxh + 1 - minh).toNat).map (fun (j : ℕ) => minh + (j : ℤ))

/-- First validation: within every (key, reference-time) group the set of
present horizons has empty symmetric difference with the expected global
contiguous range. -/
def checkAllHorizons (lt : List LongRow) (minh maxh : ℤ) : Bool :=
  (pivotGroups lt).all (fun g =>
    (horizonList minh maxh).all (fun hz => decide (0 < hCount lt g hz))
    && ((groupRows lt g).map (fun r => r.h)).all (fun hz => decide (hz ∈ horizonList minh maxh)))

/-- The distinct unit-key values (`group_by(self.key_cols)`). -/
def keyList (lt : List LongRow) : List ℤ :=
  (lt.map (fun r => r.key)).dedup

/-- The distinct (reference-time, horizon) pairs occurring for a key: one per
row of the `horizon_counts` frame restricted to that key. -/
def keyHorizonPairs (lt : List LongRow) (k : ℤ) : List (ℤ × ℤ) :=
  ((lt.filter (fun r => decide (r.key = k))).map (fun r => (r.t, r.h))).dedup

/-- The `postpredict_horizon_count` values associated with one key. -/
def countsForKey (lt : List LongRow) (k : ℤ) : List ℕ :=
  (keyHorizonPairs lt k).map (fun p => hCount lt (k, p.1) p.2)

/-- Second validation, exactly as coded: group the per-(key, reference-time,
horizon) counts by `self.key_cols` ONLY and require at most one distinct
count per key (`n_unique() <= 1`).  The code's own comment and error message
say the check is per (key, reference-time) group, but the `group_by` at
dependence.py line 318 omits `reference_time_col`. -/
def checkEqualCounts (lt : List LongRow) : Bool :=
  (keyList lt).all (fun k => decide ((countsForKey lt k).dedup.length ≤ 1))

/-- Per-group sample count: the count at the lowest horizon (they all agree
once validation has passed). -/
def groupCount (lt : List LongRow) (minh : ℤ) (g : ℤ × ℤ) : ℕ :=
  hCount lt g minh

/-- The wide rows produced for one group: sample ids are the dense block
`start .. start + count - 1` and the row carries, for each horizon of the
global range, the value of the correspondingly ranked row of that group and
horizon. -/
def makeGroupRows (lt : List LongRow) (minh maxh : ℤ) (g : ℤ × ℤ) (start : ℕ) : List WideRow :=
  (List.range (groupCount lt minh g)).map (fun j =>
    ⟨g.1, g.2, ((start + j : ℕ) : ℤ),
      (horizonList minh maxh).map (fun hz => ((groupHorizonRows lt g hz).map (fun r => r.v)).getD j 0)⟩)

/-- Concatenate the per-group wide rows; each group's id block starts where
the previous group's block ended (`cum_sum`). -/
def buildWideRows (lt : List LongRow) (minh maxh : ℤ) : List (ℤ × ℤ) → ℕ → List WideRow
  | [], _ => []
  | g :: gs, start =>
      makeGroupRows lt minh maxh g start
        ++ buildWideRows lt minh maxh gs (start + groupCount lt minh g)

/-- Sample-id block offset of a group in the concatenation order. -/
def groupStartAux (lt : List LongRow) (minh : ℤ) : List (ℤ × ℤ) → (ℤ × ℤ) → ℕ
  | [], _ => 0
  | g' :: gs, g => if g' = g then 0 else groupCount lt minh g' + groupStartAux lt minh gs g

def groupStart (lt : List LongRow) (g : ℤ × ℤ) : ℕ :=
  groupStartAux lt (minHorizonOf lt) (pivotGroups lt) g

def missingHorizonMsg : String :=
  "Within each key group, model_out must contain predictions at all integer horizons from the smallest to the largest present."

def unequalCountMsg : String :=
  "Within each key and reference_time group, model_out must contain the same numer of predictions for each horizon."

/-- Embedding of `TimeDependencePostprocessor._pivot_horizon`. -/
def pivot_horizon (lt : List LongRow) : Except String WideTable :=
  match lt with
  | [] => .error "model_out is empty"
  | _ :: _ =>
    if checkAllHorizons lt (minHorizonOf lt) (maxHorizonOf lt) then
      if checkEqualCounts lt then
        .ok ⟨minHorizonOf lt, (maxHorizonOf lt + 1 - minHorizonOf lt).toNat,
          buildWideRows lt (minHorizonOf lt) (maxHorizonOf lt) (pivotGroups lt) 0⟩
      else .error unequalCountMsg
    else .error missingHorizonMsg

/-- The unpivot performed at the end of `transform`: melt the horizon value
columns back into (horizon, value) pairs, one long row per wide row and
horizon column, restoring the integer horizon encoded in the column name. -/
def unpivot_horizon (w : WideTable) : List LongRow :=
  w.rows.flatMap (fun r =>
    (List.range w.numHorizons).map (fun (j : ℕ) =>
      ⟨r.key, r.t, w.minHorizon + (j : ℤ), r.s, r.vals.getD j 0⟩))

/-- The round trip `unpivot(pivot(long))` of the spec. -/
def pivot_unpivot (lt : List LongRow) : Except String (List LongRow) :=
  (pivot_horizon lt).map unpivot_horizon

/-- The value column restricted to a (key, reference-time, horizon) cell. -/
def valuesAt (lt : List LongRow) (k t hz : ℤ) : List ℚ :=
  (groupHorizonRows lt (k, t) hz).map (fun r => r.v)

/-- A long row with its sample id forgotten. -/
def stripId (r : LongRow) : ℤ × ℤ × ℤ × ℚ := (r.key, r.t, r.h, r.v)

/-! ### transform: per-group template draw and shuffle, then unpivot

`transform` pivots, then applies `_transform_one_group` to every
(key, reference-time) group (`map_groups`), then unpivots.  Each group call
runs `_apply_shuffle` with `value_cols = self.wide_horizon_cols`, whose
`col_orderings` comprehension makes one
`argsort_random_tiebreak(..., rng=self.rng)` call per horizon column — and
with at least one horizon column that call raises `TypeError`, so every
validated input crashes inside the first group and `transform` never
returns a table.  As with `_apply_shuffle`, the sort-and-scatter step the
code would run on the pivoted representation is embedded separately
(`shuffleGroupRows`): for every horizon column index `i`, sort the group's
column ascending and scatter it along the tie-broken argsort of template
column `i`; key, reference time and sample id of every row are untouched.
The template builder (`_build_templates`) and the per-group randomness are
passed in as functions.
-/

/-- Column `i` of a wide group's value matrix. -/
def wideColumn (rows : List WideRow) (i : ℕ) : List ℚ :=
  rows.map (fun r => r.vals.getD i 0)

/-- `_apply_shuffle` specialised to the pivoted schema: each of the `numH`
horizon value columns is independently sorted and scattered along its
template ordering; all other fields are left untouched. -/
def shuffleGroupRows (numH : ℕ) (rows : List WideRow) (tmpl : List (List ℚ))
    (rnds : ℕ → List ℚ) : List WideRow :=
  (List.range rows.length).map (fun j =>
    { rows.getD j ⟨0, 0, 0, []⟩ with
        vals := ((List.range numH).map (fun i =>
          shuffleColumn (wideColumn rows i) (tmplColumn tmpl i) (rnds i))).map
            (fun col => col.getD j 0) })

/-- The `_apply_shuffle` call made by `_transform_one_group` on one pivoted
group: with at least one horizon value column the `col_orderings`
comprehension raises its `TypeError` (the `rng` keyword never binds) before
any shuffling; were the binding accepted it would return the shuffled
group. -/
def shuffleGroup (numH : ℕ) (rows : List WideRow) (tmpl : List (List ℚ))
    (rnds : ℕ → List ℚ) : Except String (List WideRow) :=
  if numH ≠ 0 ∧ pythonKwargsBind utilArgsortParams argsortCallKwargs = false
  then .error argsortTypeError
  else .ok (shuffleGroupRows numH rows tmpl rnds)

/-- `map_groups(self._transform_one_group)`: shuffle each (key,
reference-time) group in turn, the first group error aborting the whole
call. -/
def transformGroups (numH : ℕ) (rows : List WideRow)
    (bt : (ℤ × ℤ) → List WideRow → List (List ℚ)) (rnds : (ℤ × ℤ) → ℕ → List ℚ) :
    List (ℤ × ℤ) → Except String (List WideRow)
  | [] => .ok []
  | g :: gs =>
      match shuffleGroup numH (rows.filter (fun r => decide ((r.key, r.t) = g)))
          (bt g (rows.filter (fun r => decide ((r.key, r.t) = g)))) (rnds g) with
      | .error e => .error e
      | .ok srows =>
          match transformGroups numH rows bt rnds gs with
          | .error e => .error e
          | .ok rest => .ok (srows ++ rest)

/-- Embedding of `TimeDependencePostprocessor.transform` with
`return_long_format=True`: pivot, then per (key, reference-time) group build
templates and shuffle (which raises the argsort `TypeError` whenever a
horizon column exists), then unpivot.  `buildTemplates` stands for the
`_build_templates` method (e.g. `Schaake`'s weighted draw from `train_Y`) and
`rnds` supplies each group's tie-break draws. -/
def transform_long (lt : List LongRow)
    (buildTemplates : (ℤ × ℤ) → List WideRow → List (List ℚ))
    (rnds : (ℤ × ℤ) → ℕ → List ℚ) : Except String (List LongRow) :=
  match pivot_horizon lt with
  | .error e => .error e
  | .ok w =>
      match transformGroups w.numHorizons w.rows buildTemplates rnds
          ((w.rows.map (fun r => (r.key, r.t))).dedup) with
      | .error e => .error e
      | .ok srows => .ok (unpivot_horizon ⟨w.minHorizon, w.numHorizons, srows⟩)

theorem transformGroups_error (numH : ℕ) (rows : List WideRow)
    (bt : (ℤ × ℤ) → List WideRow → List (List ℚ)) (rnds : (ℤ × ℤ) → ℕ → List ℚ)
    (g : ℤ × ℤ) (gs : List (ℤ × ℤ)) (hnum : numH ≠ 0) :
    transformGroups numH rows bt rnds (g :: gs) = .error argsortTypeError := by
  show (match shuffleGroup numH (rows.filter (fun r => decide ((r.key, r.t) = g)))
      (bt g (rows.filter (fun r => decide ((r.key, r.t) = g)))) (rnds g) with
    | .error e => .error e
    | .ok srows =>
        match transformGroups numH rows bt rnds gs with
        | .error e => .error e
        | .ok rest => .ok (srows ++ rest) : Except String (List WideRow))
    = .error argsortTypeError
  rw [shuffleGroup, if_pos ⟨hnum, rfl⟩]

/-! ### Structural lemmas about pivot validation -/

theorem horizonList_mem (minh maxh hz : ℤ) :
    hz ∈ horizonList minh maxh ↔ minh ≤ hz ∧ hz ≤ maxh := by
  rw [horizonList]
  constructor
  · intro h
    obtain ⟨j, hj, hzj⟩ := List.mem_map.mp h
    have hj' := List.mem_range.mp hj
    omega
  · rintro ⟨h1, h2⟩
    refine List.mem_map.mpr ⟨(hz - minh).toNat, List.mem_range.mpr ?_, ?_⟩ <;> omega

theorem horizonList_length (minh maxh : ℤ) :
    (horizonList minh maxh).length = (maxh + 1 - minh).toNat := by
  rw [horizonList, List.length_map, List.length_range]

theorem intListMin_le : ∀ (l : List ℤ) (a : ℤ), a ∈ l → intListMin l ≤ a
  | [], a, ha => absurd ha (List.not_mem_nil a)
  | [b], a, ha => by
      rcases List.mem_singleton.mp ha with rfl
      exact le_of_eq rfl
  | b :: c :: rest, a, ha => by
      rcases List.mem_cons.mp ha with h | h
      · rw [intListMin, h]
        exact min_le_left _ _
      · rw [intListMin]
        exact le_trans (min_le_right _ _) (intListMin_le (c :: rest) a h)

theorem le_intListMax : ∀ (l : List ℤ) (a : ℤ), a ∈ l → a ≤ intListMax l
  | [], a, ha => absurd ha (List.not_mem_nil a)
  | [b], a, ha => by
      rcases List.mem_singleton.mp ha with rfl
      exact le_of_eq rfl
  | b :: c :: rest, a, ha => by
      rcases List.mem_cons.mp ha with h | h
      · rw [intListMax, h]
        exact le_max_left _ _
      · rw [intListMax]
        exact le_trans (le_intListMax (c :: rest) a h) (le_max_right _ _)

theorem mem_groupHorizonRows_iff (lt : List LongRow) (g : ℤ × ℤ) (hz : ℤ) (r : LongRow) :
    r ∈ groupHorizonRows lt g hz ↔ r ∈ lt ∧ rowGroup r = g ∧ r.h = hz := by
  simp [groupHorizonRows, List.mem_filter, and_assoc]

theorem mem_pivotGroups_iff (lt : List LongRow) (g : ℤ × ℤ) :
    g ∈ pivotGroups lt ↔ ∃ r ∈ lt, rowGroup r = g := by
  simp [pivotGroups, List.mem_dedup, List.mem_map]

theorem row_h_mem_horizonList (lt : List LongRow) (r : LongRow) (hr : r ∈ lt) :
    r.h ∈ horizonList (minHorizonOf lt) (maxHorizonOf lt) := by
  rw [horizonList_mem]
  exact ⟨intListMin_le _ _ (List.mem_map.mpr ⟨r, hr, rfl⟩),
    le_intListMax _ _ (List.mem_map.mpr ⟨r, hr, rfl⟩)⟩

theorem minHorizon_mem_horizonList (lt : List LongRow) (hne : lt ≠ []) :
    minHorizonOf lt ∈ horizonList (minHorizonOf lt) (maxHorizonOf lt) := by
  obtain ⟨r, hr⟩ := List.exists_mem_of_ne_nil lt hne
  have := row_h_mem_horizonList lt r hr
  rw [horizonList_mem] at this ⊢
  omega

theorem pivot_horizon_ok_iff (lt : List LongRow) (w : WideTable) :
    pivot_horizon lt = .ok w ↔
      lt ≠ [] ∧ checkAllHorizons lt (minHorizonOf lt) (maxHorizonOf lt) = true
      ∧ checkEqualCounts lt = true
      ∧ w = ⟨minHorizonOf lt, (maxHorizonOf lt + 1 - minHorizonOf lt).toNat,
          buildWideRows lt (minHorizonOf lt) (maxHorizonOf lt) (pivotGroups lt) 0⟩ := by
  cases lt with
  | nil => simp [pivot_horizon]
  | cons r rs =>
      rw [pivot_horizon]
      by_cases h1 : checkAllHorizons (r :: rs) (minHorizonOf (r :: rs)) (maxHorizonOf (r :: rs))
      · rw [if_pos h1]
        by_cases h2 : checkEqualCounts (r :: rs)
        · rw [if_pos h2]
          simp [h1, h2, eq_comm]
        · rw [if_neg h2]
          simp [h2]
      · rw [if_neg h1]
        simp [h1]

theorem checkAllHorizons_pos (lt : List LongRow)
    (hchk : checkAllHorizons lt (minHorizonOf lt) (maxHorizonOf lt) = true)
    (g : ℤ × ℤ) (hg : g ∈ pivotGroups lt) (hz : ℤ)
    (hhz : hz ∈ horizonList (minHorizonOf lt) (maxHorizonOf lt)) :
    0 < hCount lt g hz := by
  rw [checkAllHorizons, List.all_eq_true] at hchk
  have h := hchk g hg
  rw [Bool.and_eq_true, List.all_eq_true] at h
  have h2 := h.1 hz hhz
  simpa using h2

theorem dedup_length_le_one_eq {α : Type} [DecidableEq α] (l : List α)
    (h : l.dedup.length ≤ 1) (a b : α) (ha : a ∈ l) (hb : b ∈ l) : a = b := by
  have ha' : a ∈ l.dedup := List.mem_dedup.mpr ha
  have hb' : b ∈ l.dedup := List.mem_dedup.mpr hb
  cases hd : l.dedup with
  | nil =>
      rw [hd] at ha'
      exact absurd ha' (List.not_mem_nil a)
  | cons x xs =>
      cases xs with
      | nil =>
          rw [hd] at ha' hb'
          rw [List.mem_singleton.mp ha', List.mem_singleton.mp hb']
      | cons y ys =>
          rw [hd] at h
          simp at h

theorem checkEqualCounts_eq (lt : List LongRow) (hchk : checkEqualCounts lt = true)
    (g : ℤ × ℤ) (hz1 hz2 : ℤ)
    (h1 : 0 < hCount lt g hz1) (h2 : 0 < hCount lt g hz2) :
    hCount lt g hz1 = hCount lt g hz2 := by
  obtain ⟨r1, hr1⟩ := List.exists_mem_of_length_pos h1
  obtain ⟨r2, hr2⟩ := List.exists_mem_of_length_pos h2
  rw [mem_groupHorizonRows_iff] at hr1 hr2
  rw [checkEqualCounts, List.all_eq_true] at hchk
  have hkey : g.1 ∈ keyList lt := by
    rw [keyList, List.mem_dedup]
    refine List.mem_map.mpr ⟨r1, hr1.1, ?_⟩
    have := hr1.2.1
    rw [rowGroup] at this
    rw [← this]
  have hle := hchk g.1 hkey
  rw [decide_eq_true_eq] at hle
  have hmem : ∀ (hz : ℤ) (r : LongRow), r ∈ lt → rowGroup r = g → r.h = hz →
      hCount lt g hz ∈ countsForKey lt g.1 := by
    intro hz r hrlt hrg hrh
    rw [countsForKey]
    have hpair : (g.2, hz) ∈ keyHorizonPairs lt g.1 := by
      rw [keyHorizonPairs, List.mem_dedup]
      refine List.mem_map.mpr ⟨r, List.mem_filter.mpr ⟨hrlt, ?_⟩, ?_⟩
      · rw [decide_eq_true_eq]
        have := hrg
        rw [rowGroup] at this
        rw [← this]
      · rw [← hrg, rowGroup, hrh]
    refine List.mem_map.mpr ⟨(g.2, hz), hpair, ?_⟩
    have hgg : (g.1, g.2) = g := rfl
    rw [hgg]
  exact dedup_length_le_one_eq _ hle _ _
    (hmem hz1 r1 hr1.1 hr1.2.1 hr1.2.2) (hmem hz2 r2 hr2.1 hr2.2.1 hr2.2.2)

theorem hCount_eq_groupCount (lt : List LongRow) (hne : lt ≠ [])
    (hchk1 : checkAllHorizons lt (minHorizonOf lt) (maxHorizonOf lt) = true)
    (hchk2 : checkEqualCounts lt = true)
    (g : ℤ × ℤ) (hg : g ∈ pivotGroups lt) (hz : ℤ)
    (hhz : hz ∈ horizonList (minHorizonOf lt) (maxHorizonOf lt)) :
    hCount lt g hz = groupCount lt (minHorizonOf lt) g := by
  rw [groupCount]
  exact checkEqualCounts_eq lt hchk2 g hz (minHorizonOf lt)
    (checkAllHorizons_pos lt hchk1 g hg hz hhz)
    (checkAllHorizons_pos lt hchk1 g hg (minHorizonOf lt) (minHorizon_mem_horizonList lt hne))

/-! ### Claim theorems about pivot validation -/

theorem transform_long_of_pivot_error (lt : List LongRow)
    (bt : (ℤ × ℤ) → List WideRow → List (List ℚ)) (rnds : (ℤ × ℤ) → ℕ → List ℚ)
    (e : String) (h : pivot_horizon lt = .error e) :
    transform_long lt bt rnds = .error e := by
  rw [transform_long, h]

theorem pivot_horizon_error_check1 (lt : List LongRow) (hne : lt ≠ [])
    (h : checkAllHorizons lt (minHorizonOf lt) (maxHorizonOf lt) = false) :
    pivot_horizon lt = .error missingHorizonMsg := by
  cases lt with
  | nil => exact absurd rfl hne
  | cons r rs =>
      rw [pivot_horizon, if_neg]
      simp [h]

theorem pivot_horizon_error_check2 (lt : List LongRow) (hne : lt ≠ [])
    (h1 : checkAllHorizons lt (minHorizonOf lt) (maxHorizonOf lt) = true)
    (h2 : checkEqualCounts lt = false) :
    pivot_horizon lt = .error unequalCountMsg := by
  cases lt with
  | nil => exact absurd rfl hne
  | cons r rs =>
      rw [pivot_horizon, if_pos (by simp [h1]), if_neg]
      simp [h2]

/-- C5: whenever some (key, reference-time) group misses a horizon of the
contiguous global range, or two horizons of one group have different row
counts, `_pivot_horizon` raises one of its two `ValueError`s and the whole
`transform` call aborts with the same error, producing no output. -/
theorem pivot_horizon_error_on_invalid (lt : List LongRow)
    (bt : (ℤ × ℤ) → List WideRow → List (List ℚ)) (rnds : (ℤ × ℤ) → ℕ → List ℚ)
    (hbad :
      (∃ g ∈ pivotGroups lt, ∃ hz ∈ horizonList (minHorizonOf lt) (maxHorizonOf lt),
        hCount lt g hz = 0)
      ∨ (∃ g ∈ pivotGroups lt, ∃ hz1 ∈ horizonList (minHorizonOf lt) (maxHorizonOf lt),
          ∃ hz2 ∈ horizonList (minHorizonOf lt) (maxHorizonOf lt),
          hCount lt g hz1 ≠ hCount lt g hz2)) :
    (pivot_horizon lt = .error missingHorizonMsg ∨ pivot_horizon lt = .error unequalCountMsg)
    ∧ (transform_long lt bt rnds = .error missingHorizonMsg
        ∨ transform_long lt bt rnds = .error unequalCountMsg) := by
  have hne : lt ≠ [] := by
    rcases hbad with ⟨g, hg, _⟩ | ⟨g, hg, _⟩ <;>
    · rw [mem_pivotGroups_iff] at hg
      obtain ⟨r, hr, _⟩ := hg
      exact List.ne_nil_of_mem hr
  have herr : pivot_horizon lt = .error missingHorizonMsg
      ∨ pivot_horizon lt = .error unequalCountMsg := by
    by_cases h1 : checkAllHorizons lt (minHorizonOf lt) (maxHorizonOf lt) = true
    · right
      by_cases h2 : checkEqualCounts lt = true
      · exfalso
        rcases hbad with ⟨g, hg, hz, hhz, hzero⟩ | ⟨g, hg, hz1, hhz1, hz2, hhz2, hdiff⟩
        · have := checkAllHorizons_pos lt h1 g hg hz hhz
          omega
        · exact hdiff (checkEqualCounts_eq lt h2 g hz1 hz2
            (checkAllHorizons_pos lt h1 g hg hz1 hhz1)
            (checkAllHorizons_pos lt h1 g hg hz2 hhz2))
      · exact pivot_horizon_error_check2 lt hne h1 (by simpa using h2)
    · left
      exact pivot_horizon_error_check1 lt hne (by simpa using h1)
  refine ⟨herr, ?_⟩
  rcases herr with h | h
  · exact Or.inl (transform_long_of_pivot_error lt bt rnds _ h)
  · exact Or.inr (transform_long_of_pivot_error lt bt rnds _ h)

/-- A long table whose only group lacks horizon 2 of the global range [1, 3]. -/
def ltMissingHorizon : List LongRow := [⟨0, 0, 1, 0, 0⟩, ⟨0, 0, 3, 0, 0⟩]

/-- A long table whose only group has one sample at horizon 1 and two at 2. -/
def ltUnequalCounts : List LongRow := [⟨0, 0, 1, 0, 0⟩, ⟨0, 0, 2, 0, 0⟩, ⟨0, 0, 2, 1, 0⟩]

theorem pivot_horizon_error_on_invalid_witness :
    (((∃ g ∈ pivotGroups ltMissingHorizon,
        ∃ hz ∈ horizonList (minHorizonOf ltMissingHorizon) (maxHorizonOf ltMissingHorizon),
        hCount ltMissingHorizon g hz = 0)
      ∨ (∃ g ∈ pivotGroups ltMissingHorizon,
          ∃ hz1 ∈ horizonList (minHorizonOf ltMissingHorizon) (maxHorizonOf ltMissingHorizon),
          ∃ hz2 ∈ horizonList (minHorizonOf ltMissingHorizon) (maxHorizonOf ltMissingHorizon),
          hCount ltMissingHorizon g hz1 ≠ hCount ltMissingHorizon g hz2))
      ∧ ((pivot_horizon ltMissingHorizon = .error missingHorizonMsg
          ∨ pivot_horizon ltMissingHorizon = .error unequalCountMsg)
        ∧ (transform_long ltMissingHorizon (fun _ _ => []) (fun _ _ => []) = .error missingHorizonMsg
            ∨ transform_long ltMissingHorizon (fun _ _ => []) (fun _ _ => []) = .error unequalCountMsg)))
    ∧ (((∃ g ∈ pivotGroups ltUnequalCounts,
        ∃ hz ∈ horizonList (minHorizonOf ltUnequalCounts) (maxHorizonOf ltUnequalCounts),
        hCount ltUnequalCounts g hz = 0)
      ∨ (∃ g ∈ pivotGroups ltUnequalCounts,
          ∃ hz1 ∈ horizonList (minHorizonOf ltUnequalCounts) (maxHorizonOf ltUnequalCounts),
          ∃ hz2 ∈ horizonList (minHorizonOf ltUnequalCounts) (maxHorizonOf ltUnequalCounts),
          hCount ltUnequalCounts g hz1 ≠ hCount ltUnequalCounts g hz2))
      ∧ ((pivot_horizon ltUnequalCounts = .error missingHorizonMsg
          ∨ pivot_horizon ltUnequalCounts = .error unequalCountMsg)
        ∧ (transform_long ltUnequalCounts (fun _ _ => []) (fun _ _ => []) = .error missingHorizonMsg
            ∨ transform_long ltUnequalCounts (fun _ _ => []) (fun _ _ => []) = .error unequalCountMsg))) :=
  ⟨⟨by decide, pivot_horizon_error_on_invalid ltMissingHorizon (fun _ _ => []) (fun _ _ => []) (by decide)⟩,
    ⟨by decide, pivot_horizon_error_on_invalid ltUnequalCounts (fun _ _ => []) (fun _ _ => []) (by decide)⟩⟩

/-! ### C6: per-group-consistent counts that differ across reference times -/

/-- One unit key, horizons all equal to 1, but reference time 0 has two
samples while reference time 1 has one. -/
def ltDiffCountAcrossRefTimes : List LongRow :=
  [⟨0, 0, 1, 0, 0⟩, ⟨0, 0, 1, 1, 0⟩, ⟨0, 1, 1, 0, 0⟩]

/-- C6 fails on the code: although every (key, reference-time) group of
`ltDiffCountAcrossRefTimes` individually covers the whole global horizon
range with a constant positive per-horizon count, `_pivot_horizon` raises its
count `ValueError`, because the check at dependence.py lines 316-323 groups
the per-(key, reference-time, horizon) counts by the key columns only,
contrary to its own comment and error message. -/
theorem pivot_rejects_cross_reference_time_counts :
    (∀ g ∈ pivotGroups ltDiffCountAcrossRefTimes,
      ∀ hz1 ∈ horizonList (minHorizonOf ltDiffCountAcrossRefTimes)
        (maxHorizonOf ltDiffCountAcrossRefTimes),
      ∀ hz2 ∈ horizonList (minHorizonOf ltDiffCountAcrossRefTimes)
        (maxHorizonOf ltDiffCountAcrossRefTimes),
      0 < hCount ltDiffCountAcrossRefTimes g hz1
        ∧ hCount ltDiffCountAcrossRefTimes g hz1 = hCount ltDiffCountAcrossRefTimes g hz2)
    ∧ pivot_horizon ltDiffCountAcrossRefTimes = .error unequalCountMsg := by
  constructor
  · decide
  · rfl

/-! ### C4: the pivot/unpivot round trip -/

/-- A one-row long table whose sample id is not the dense id `0`. -/
def ltRoundTripCex : List LongRow := [⟨0, 0, 1, 7, 5⟩]

/-- C4 as stated fails on the code: pivoting reassigns sample ids, so
`unpivot(pivot(long))` differs from `long` in the sample-id column whenever
the input ids are not already the dense reassigned ones. -/
theorem pivot_unpivot_roundtrip_counterexample :
    pivot_unpivot ltRoundTripCex = .ok [⟨0, 0, 1, 0, 5⟩]
    ∧ ¬ ([⟨0, 0, 1, 0, 5⟩] : List LongRow).Perm ltRoundTripCex := by
  constructor
  · rfl
  · decide

/-! ### Group chunks of the pivoted table -/

theorem mem_makeGroupRows_group (lt : List LongRow) (minh maxh : ℤ) (g : ℤ × ℤ)
    (start : ℕ) (r : WideRow) (hr : r ∈ makeGroupRows lt minh maxh g start) :
    r.key = g.1 ∧ r.t = g.2 := by
  rw [makeGroupRows] at hr
  obtain ⟨j, _, hj⟩ := List.mem_map.mp hr
  rw [← hj]
  exact ⟨rfl, rfl⟩

theorem mem_buildWideRows_group (lt : List LongRow) (minh maxh : ℤ) :
    ∀ (gs : List (ℤ × ℤ)) (start : ℕ) (r : WideRow),
      r ∈ buildWideRows lt minh maxh gs start → (r.key, r.t) ∈ gs
  | [], _, r, hr => absurd hr (List.not_mem_nil r)
  | g :: gs, start, r, hr => by
      rw [buildWideRows] at hr
      rcases List.mem_append.mp hr with h | h
      · obtain ⟨h1, h2⟩ := mem_makeGroupRows_group lt minh maxh g start r h
        rw [h1, h2]
        exact List.mem_cons_self _ _
      · exact List.mem_cons_of_mem _ (mem_buildWideRows_group lt minh maxh gs _ r h)

theorem buildWideRows_filter_not_mem (lt : List LongRow) (minh maxh : ℤ)
    (gs : List (ℤ × ℤ)) (start : ℕ) (g : ℤ × ℤ) (hg : g ∉ gs) :
    (buildWideRows lt minh maxh gs start).filter
      (fun r => decide ((r.key, r.t) = g)) = [] := by
  rw [List.filter_eq_nil_iff]
  intro r hr hdec
  rw [decide_eq_true_eq] at hdec
  exact hg (hdec ▸ mem_buildWideRows_group lt minh maxh gs start r hr)

theorem makeGroupRows_filter_self (lt : List LongRow) (minh maxh : ℤ) (g : ℤ × ℤ)
    (start : ℕ) :
    (makeGroupRows lt minh maxh g start).filter
      (fun r => decide ((r.key, r.t) = g)) = makeGroupRows lt minh maxh g start := by
  rw [List.filter_eq_self]
  intro r hr
  obtain ⟨h1, h2⟩ := mem_makeGroupRows_group lt minh maxh g start r hr
  rw [decide_eq_true_eq, h1, h2]

theorem makeGroupRows_filter_other (lt : List LongRow) (minh maxh : ℤ) (g g' : ℤ × ℤ)
    (start : ℕ) (hgg : g ≠ g') :
    (makeGroupRows lt minh maxh g start).filter
      (fun r => decide ((r.key, r.t) = g')) = [] := by
  rw [List.filter_eq_nil_iff]
  intro r hr hdec
  rw [decide_eq_true_eq] at hdec
  obtain ⟨h1, h2⟩ := mem_makeGroupRows_group lt minh maxh g start r hr
  apply hgg
  rw [← hdec, h1, h2]

theorem buildWideRows_filter_group (lt : List LongRow) (minh maxh : ℤ) :
    ∀ (gs : List (ℤ × ℤ)) (start : ℕ) (g : ℤ × ℤ), gs.Nodup → g ∈ gs →
      (buildWideRows lt minh maxh gs start).filter (fun r => decide ((r.key, r.t) = g))
        = makeGroupRows lt minh maxh g (start + groupStartAux lt minh gs g)
  | [], _, g, _, hg => absurd hg (List.not_mem_nil g)
  | g' :: gs, start, g, hnd, hg => by
      rw [buildWideRows, List.filter_append, groupStartAux]
      by_cases hgg : g' = g
      · subst hgg
        rw [if_pos rfl, makeGroupRows_filter_self,
          buildWideRows_filter_not_mem lt minh maxh gs _ g' (List.nodup_cons.mp hnd).1,
          List.append_nil]
        rw [Nat.add_zero]
      · have hgmem : g ∈ gs := by
          rcases List.mem_cons.mp hg with h | h
          · exact absurd h.symm hgg
          · exact h
        rw [if_neg hgg, makeGroupRows_filter_other lt minh maxh g' g start hgg,
          List.nil_append,
          buildWideRows_filter_group lt minh maxh gs _ g (List.nodup_cons.mp hnd).2 hgmem]
        rw [Nat.add_assoc]

theorem makeGroupRows_vals_length (lt : List LongRow) (minh maxh : ℤ) (g : ℤ × ℤ)
    (start : ℕ) (r : WideRow) (hr : r ∈ makeGroupRows lt minh maxh g start) :
    r.vals.length = (horizonList minh maxh).length := by
  rw [makeGroupRows] at hr
  obtain ⟨j, _, hj⟩ := List.mem_map.mp hr
  rw [← hj]
  exact List.length_map _ _

theorem mem_buildWideRows_vals_length (lt : List LongRow) (minh maxh : ℤ) :
    ∀ (gs : List (ℤ × ℤ)) (start : ℕ) (r : WideRow),
      r ∈ buildWideRows lt minh maxh gs start →
      r.vals.length = (horizonList minh maxh).length
  | [], _, r, hr => absurd hr (List.not_mem_nil r)
  | g :: gs, start, r, hr => by
      rw [buildWideRows] at hr
      rcases List.mem_append.mp hr with h | h
      · exact makeGroupRows_vals_length lt minh maxh g start r h
      · exact mem_buildWideRows_vals_length lt minh maxh gs _ r h

/-! ### Filtering the unpivoted table at one (group, horizon) cell -/

theorem range_filter_eq (n i : ℕ) (hi : i < n) :
    (List.range n).filter (fun j => decide (j = i)) = [i] := by
  induction n with
  | zero => omega
  | succ n ih =>
      rw [List.range_succ, List.filter_append]
      by_cases h : i < n
      · rw [ih h]
        have : ([n] : List ℕ).filter (fun j => decide (j = i)) = [] := by
          rw [List.filter_eq_nil_iff]
          intro a ha hdec
          rw [List.mem_singleton.mp ha] at hdec
          rw [decide_eq_true_eq] at hdec
          omega
        rw [this, List.append_nil]
      · have hin : i = n := by omega
        subst hin
        have h1 : (List.range i).filter (fun j => decide (j = i)) = [] := by
          rw [List.filter_eq_nil_iff]
          intro a ha hdec
          rw [decide_eq_true_eq] at hdec
          have := List.mem_range.mp ha
          omega
        rw [h1, List.nil_append]
        rw [List.filter_cons]
        simp

theorem range_map_mkrow_filter (minh : ℤ) (numH : ℕ) (r0 : WideRow) (k t : ℤ) (i : ℕ)
    (hi : i < numH) :
    ((List.range numH).map (fun (j : ℕ) =>
        (⟨r0.key, r0.t, minh + (j : ℤ), r0.s, r0.vals.getD j 0⟩ : LongRow))).filter
      (fun r => decide (rowGroup r = (k, t) ∧ r.h = minh + (i : ℤ)))
    = if (r0.key, r0.t) = (k, t)
      then [⟨k, t, minh + (i : ℤ), r0.s, r0.vals.getD i 0⟩]
      else [] := by
  rw [List.filter_map]
  by_cases hkt : (r0.key, r0.t) = (k, t)
  · rw [if_pos hkt]
    have hcg : (List.range numH).filter
        ((fun r => decide (rowGroup r = (k, t) ∧ r.h = minh + (i : ℤ))) ∘ (fun (j : ℕ) =>
          (⟨r0.key, r0.t, minh + (j : ℤ), r0.s, r0.vals.getD j 0⟩ : LongRow)))
        = (List.range numH).filter (fun j => decide (j = i)) := by
      apply List.filter_congr
      intro j hj
      simp only [Function.comp_apply]
      rw [decide_eq_decide]
      constructor
      · rintro ⟨_, heq⟩
        omega
      · rintro rfl
        exact ⟨hkt, rfl⟩
    rw [hcg, range_filter_eq numH i hi, List.map_cons, List.map_nil]
    have hk : r0.key = k := congrArg Prod.fst hkt
    have ht : r0.t = t := congrArg Prod.snd hkt
    rw [hk, ht]
  · rw [if_neg hkt]
    have hnil : (List.range numH).filter
        ((fun r => decide (rowGroup r = (k, t) ∧ r.h = minh + (i : ℤ))) ∘ (fun (j : ℕ) =>
          (⟨r0.key, r0.t, minh + (j : ℤ), r0.s, r0.vals.getD j 0⟩ : LongRow))) = [] := by
      rw [List.filter_eq_nil_iff]
      intro j hj hdec
      simp only [Function.comp_apply, decide_eq_true_eq] at hdec
      exact hkt hdec.1
    rw [hnil, List.map_nil]

theorem unpivot_filter_at (minh : ℤ) (numH : ℕ) (rows : List WideRow) (k t : ℤ)
    (i : ℕ) (hi : i < numH) :
    (unpivot_horizon ⟨minh, numH, rows⟩).filter
        (fun r => decide (rowGroup r = (k, t) ∧ r.h = minh + (i : ℤ)))
      = (rows.filter (fun r => decide ((r.key, r.t) = (k, t)))).map
          (fun r => ⟨k, t, minh + (i : ℤ), r.s, r.vals.getD i 0⟩) := by
  induction rows with
  | nil => rfl
  | cons r0 rows ih =>
      simp only [unpivot_horizon] at ih ⊢
      rw [List.flatMap_cons, List.filter_append, ih,
        range_map_mkrow_filter minh numH r0 k t i hi, List.filter_cons]
      by_cases hkt : (r0.key, r0.t) = (k, t)
      · rw [if_pos hkt, if_pos (by rw [decide_eq_true_eq]; exact hkt), List.map_cons]
        rfl
      · rw [if_neg hkt, if_neg (by rw [decide_eq_true_eq]; exact hkt), List.nil_append]

theorem mem_unpivot_iff (minh : ℤ) (numH : ℕ) (rows : List WideRow) (r : LongRow) :
    r ∈ unpivot_horizon ⟨minh, numH, rows⟩
      ↔ ∃ rw0 ∈ rows, ∃ j < numH,
          r = ⟨rw0.key, rw0.t, minh + (j : ℤ), rw0.s, rw0.vals.getD j 0⟩ := by
  simp only [unpivot_horizon, List.mem_flatMap, List.mem_map, List.mem_range]
  constructor
  · rintro ⟨rw0, hrw0, j, hj, hjr⟩
    exact ⟨rw0, hrw0, j, hj, hjr.symm⟩
  · rintro ⟨rw0, hrw0, j, hj, hjr⟩
    exact ⟨rw0, hrw0, j, hj, hjr.symm⟩

theorem horizonList_getElem (minh maxh : ℤ) (i : ℕ) (hi : i < (horizonList minh maxh).length) :
    (horizonList minh maxh)[i] = minh + (i : ℤ) := by
  simp [horizonList]

theorem makeGroupRows_map_val (lt : List LongRow) (minh maxh : ℤ) (g : ℤ × ℤ) (start : ℕ)
    (i : ℕ) (hi : i < (horizonList minh maxh).length)
    (hcnt : hCount lt g (minh + (i : ℤ)) = groupCount lt minh g) :
    (makeGroupRows lt minh maxh g start).map (fun r => r.vals.getD i 0)
      = (groupHorizonRows lt g (minh + (i : ℤ))).map (fun r => r.v) := by
  have hfun : ∀ j : ℕ,
      ((horizonList minh maxh).map
        (fun hz => ((groupHorizonRows lt g hz).map (fun r => r.v)).getD j 0)).getD i 0
      = ((groupHorizonRows lt g (minh + (i : ℤ))).map (fun r => r.v)).getD j 0 := by
    intro j
    rw [getD_eq_getElem_of_lt _ 0 (by simpa using hi), List.getElem_map, horizonList_getElem]
  have hvl : ((groupHorizonRows lt g (minh + (i : ℤ))).map (fun r => r.v)).length
      = groupCount lt minh g := by
    rw [List.length_map]
    exact hcnt
  rw [makeGroupRows, List.map_map]
  simp only [Function.comp_def]
  rw [← hvl]
  refine (List.map_congr_left ?_).trans (getD_range_self _)
  intro j _
  exact hfun j

theorem valuesAt_unpivot_pivot (lt : List LongRow) (w : WideTable)
    (hok : pivot_horizon lt = .ok w) (k t hz : ℤ) :
    valuesAt (unpivot_horizon w) k t hz = valuesAt lt k t hz := by
  obtain ⟨hne, hchk1, hchk2, hw⟩ := (pivot_horizon_ok_iff lt w).mp hok
  subst hw
  by_cases hhz : hz ∈ horizonList (minHorizonOf lt) (maxHorizonOf lt)
  · have hbz := (horizonList_mem (minHorizonOf lt) (maxHorizonOf lt) hz).mp hhz
    have hzi : hz = minHorizonOf lt + (((hz - minHorizonOf lt).toNat : ℕ) : ℤ) := by omega
    have hiH : (hz - minHorizonOf lt).toNat < (maxHorizonOf lt + 1 - minHorizonOf lt).toNat := by
      omega
    rw [valuesAt, valuesAt, groupHorizonRows, groupHorizonRows, hzi]
    rw [unpivot_filter_at (minHorizonOf lt) ((maxHorizonOf lt + 1 - minHorizonOf lt).toNat)
      _ k t (hz - minHorizonOf lt).toNat hiH]
    rw [List.map_map]
    by_cases hgmem : (k, t) ∈ pivotGroups lt
    · rw [buildWideRows_filter_group lt (minHorizonOf lt) (maxHorizonOf lt) (pivotGroups lt) 0
        (k, t) (List.nodup_dedup _) hgmem]
      have hcnt : hCount lt (k, t)
          (minHorizonOf lt + (((hz - minHorizonOf lt).toNat : ℕ) : ℤ))
          = groupCount lt (minHorizonOf lt) (k, t) := by
        apply hCount_eq_groupCount lt hne hchk1 hchk2 (k, t) hgmem
        rw [← hzi]
        exact hhz
      have hval := makeGroupRows_map_val lt (minHorizonOf lt) (maxHorizonOf lt) (k, t)
        (0 + groupStartAux lt (minHorizonOf lt) (pivotGroups lt) (k, t))
        (hz - minHorizonOf lt).toNat
        (by rw [horizonList_length]; exact hiH) hcnt
      rw [groupHorizonRows] at hval
      rw [← hval]
      exact List.map_congr_left (fun r _ => rfl)
    · rw [buildWideRows_filter_not_mem lt (minHorizonOf lt) (maxHorizonOf lt)
        (pivotGroups lt) 0 (k, t) hgmem, List.map_nil]
      have : lt.filter (fun r => decide (rowGroup r = (k, t)
          ∧ r.h = minHorizonOf lt + (((hz - minHorizonOf lt).toNat : ℕ) : ℤ))) = [] := by
        rw [List.filter_eq_nil_iff]
        intro r hr hdec
        rw [decide_eq_true_eq] at hdec
        exact hgmem ((mem_pivotGroups_iff lt (k, t)).mpr ⟨r, hr, hdec.1⟩)
      rw [this, List.map_nil]
  · rw [valuesAt, valuesAt, groupHorizonRows, groupHorizonRows]
    have h1 : (unpivot_horizon ⟨minHorizonOf lt, (maxHorizonOf lt + 1 - minHorizonOf lt).toNat,
        buildWideRows lt (minHorizonOf lt) (maxHorizonOf lt) (pivotGroups lt) 0⟩).filter
        (fun r => decide (rowGroup r = (k, t) ∧ r.h = hz)) = [] := by
      rw [List.filter_eq_nil_iff]
      intro r hr hdec
      rw [decide_eq_true_eq] at hdec
      obtain ⟨rw0, _, j, hj, hjr⟩ := (mem_unpivot_iff _ _ _ r).mp hr
      apply hhz
      rw [← hdec.2, hjr]
      show minHorizonOf lt + (j : ℤ) ∈ _
      rw [horizonList_mem]
      omega
    have h2 : lt.filter (fun r => decide (rowGroup r = (k, t) ∧ r.h = hz)) = [] := by
      rw [List.filter_eq_nil_iff]
      intro r hr hdec
      rw [decide_eq_true_eq] at hdec
      exact hhz (hdec.2 ▸ row_h_mem_horizonList lt r hr)
    rw [h1, h2]

theorem count_map_eq_countP {α β : Type} [DecidableEq β] (f : α → β) (l : List α) (y : β) :
    @List.count β instBEqOfDecidableEq y (l.map f)
      = l.countP (fun x => decide (f x = y)) := by
  induction l with
  | nil => rfl
  | cons a l ih =>
      rw [List.map_cons, List.count_cons, List.countP_cons, ih]
      rfl

theorem count_stripId_aux (X : List LongRow) (a b c : ℤ) (d : ℚ) :
    X.countP (fun r => decide (stripId r = (a, b, c, d)))
      = (valuesAt X a b c).countP (fun x => decide (x = d)) := by
  rw [valuesAt, groupHorizonRows, List.countP_map, List.countP_filter]
  apply List.countP_congr
  intro r _
  simp only [Function.comp_apply, stripId, Prod.mk.injEq, rowGroup,
    Bool.and_eq_true, decide_eq_true_eq]
  constructor
  · rintro ⟨h1, h2, h3, h4⟩
    exact ⟨h4, ⟨h1, h2⟩, h3⟩
  · rintro ⟨h4, ⟨h1, h2⟩, h3⟩
    exact ⟨h1, h2, h3, h4⟩

/-- C4 amended: for every input accepted by the pivot's validation,
`unpivot(pivot(long))` equals the original long table up to row order on
every column except the sample-id column, which the pivot reassigns (the
horizon column comes back with its original integer values).  Full equality
holds only when the input ids already are the dense reassigned ones, as
`pivot_unpivot_roundtrip_counterexample` shows. -/
theorem pivot_unpivot_roundtrip_amended (lt : List LongRow) (w : WideTable)
    (hok : pivot_horizon lt = .ok w) :
    pivot_unpivot lt = .ok (unpivot_horizon w)
    ∧ ((unpivot_horizon w).map stripId).Perm (lt.map stripId) := by
  constructor
  · rw [pivot_unpivot, hok]
    rfl
  · rw [List.perm_iff_count]
    intro q
    obtain ⟨a, b, c, d⟩ := q
    rw [count_map_eq_countP stripId (unpivot_horizon w) (a, b, c, d),
      count_map_eq_countP stripId lt (a, b, c, d),
      count_stripId_aux, count_stripId_aux, valuesAt_unpivot_pivot lt w hok]

/-- Two samples at each of two horizons for one group, with non-dense ids
relabelled by the pivot. -/
def ltRoundTripEx : List LongRow :=
  [⟨0, 0, 1, 0, 10⟩, ⟨0, 0, 2, 1, 20⟩, ⟨0, 0, 1, 2, 11⟩, ⟨0, 0, 2, 3, 21⟩]

def wRoundTripEx : WideTable :=
  ⟨1, 2, [⟨0, 0, 0, [10, 20]⟩, ⟨0, 0, 1, [11, 21]⟩]⟩

theorem pivot_unpivot_roundtrip_amended_witness :
    pivot_horizon ltRoundTripEx = .ok wRoundTripEx
    ∧ (pivot_unpivot ltRoundTripEx = .ok (unpivot_horizon wRoundTripEx)
      ∧ ((unpivot_horizon wRoundTripEx).map stripId).Perm (ltRoundTripEx.map stripId)) :=
  ⟨rfl, pivot_unpivot_roundtrip_amended ltRoundTripEx wRoundTripEx rfl⟩

/-! ### Lemmas about the per-group shuffle on wide rows -/

theorem shuffleGroupRows_map_of_vals_indep {β : Type} (numH : ℕ) (rows : List WideRow)
    (tmpl : List (List ℚ)) (rnds : ℕ → List ℚ) (f : WideRow → β)
    (hf : ∀ (r : WideRow) (v : List ℚ), f { r with vals := v } = f r) :
    (shuffleGroupRows numH rows tmpl rnds).map f = rows.map f := by
  rw [shuffleGroupRows, List.map_map]
  refine (List.map_congr_left ?_).trans (map_getD_range f rows ⟨0, 0, 0, []⟩)
  intro j _
  exact hf _ _

theorem shuffleGroupRows_map_s (numH : ℕ) (rows : List WideRow)
    (tmpl : List (List ℚ)) (rnds : ℕ → List ℚ) :
    (shuffleGroupRows numH rows tmpl rnds).map (fun r => r.s) = rows.map (fun r => r.s) :=
  shuffleGroupRows_map_of_vals_indep numH rows tmpl rnds _ (fun _ _ => rfl)

theorem mem_shuffleGroupRows (numH : ℕ) (rows : List WideRow)
    (tmpl : List (List ℚ)) (rnds : ℕ → List ℚ) (r : WideRow)
    (hr : r ∈ shuffleGroupRows numH rows tmpl rnds) :
    ∃ j, j < rows.length ∧ r.key = (rows.getD j ⟨0, 0, 0, []⟩).key
      ∧ r.t = (rows.getD j ⟨0, 0, 0, []⟩).t ∧ r.s = (rows.getD j ⟨0, 0, 0, []⟩).s := by
  rw [shuffleGroupRows] at hr
  obtain ⟨j, hj, hjr⟩ := List.mem_map.mp hr
  refine ⟨j, List.mem_range.mp hj, ?_, ?_, ?_⟩ <;> rw [← hjr]

theorem shuffleGroupRows_map_val (numH : ℕ) (rows : List WideRow)
    (tmpl : List (List ℚ)) (rnds : ℕ → List ℚ) (i : ℕ) (hi : i < numH) :
    (shuffleGroupRows numH rows tmpl rnds).map (fun r => r.vals.getD i 0)
      = shuffleColumn (wideColumn rows i) (tmplColumn tmpl i) (rnds i) := by
  rw [shuffleGroupRows, List.map_map]
  have hfun : ∀ j : ℕ, (((List.range numH).map (fun i2 =>
      shuffleColumn (wideColumn rows i2) (tmplColumn tmpl i2) (rnds i2))).map
        (fun col => col.getD j 0)).getD i 0
      = (shuffleColumn (wideColumn rows i) (tmplColumn tmpl i) (rnds i)).getD j 0 := by
    intro j
    rw [getD_eq_getElem_of_lt _ 0 (by simpa using hi), List.getElem_map, List.getElem_map,
      List.getElem_range]
  have hlen : (shuffleColumn (wideColumn rows i) (tmplColumn tmpl i) (rnds i)).length
      = rows.length := by
    rw [shuffleColumn_length, wideColumn, List.length_map]
  apply List.ext_getElem
  · simp [hlen]
  · intro n h1 h2
    rw [List.getElem_map, List.getElem_range, ← getD_eq_getElem_of_lt _ 0 h2]
    exact hfun n

theorem makeGroupRows_map_s (lt : List LongRow) (minh maxh : ℤ) (g : ℤ × ℤ) (start : ℕ) :
    (makeGroupRows lt minh maxh g start).map (fun r => r.s)
      = (List.range (groupCount lt minh g)).map (fun (j : ℕ) => ((start + j : ℕ) : ℤ)) := by
  rw [makeGroupRows, List.map_map]
  rfl

theorem flatMap_filter_group {κ α2 : Type} [DecidableEq κ] (chunk : κ → List α2)
    (keyf : α2 → κ) (g0 : κ) :
    ∀ (gl : List κ), gl.Nodup →
      (∀ g ∈ gl, ∀ r ∈ chunk g, keyf r = g) →
      (gl.flatMap chunk).filter (fun r => decide (keyf r = g0))
        = if g0 ∈ gl then chunk g0 else []
  | [], _, _ => by simp
  | g :: gs, hnd, hchunk => by
      rw [List.flatMap_cons, List.filter_append,
        flatMap_filter_group chunk keyf g0 gs (List.nodup_cons.mp hnd).2
          (fun g2 hg2 => hchunk g2 (List.mem_cons_of_mem _ hg2))]
      by_cases hgg : g = g0
      · subst hgg
        rw [if_pos (List.mem_cons_self _ _),
          if_neg (fun hmem => (List.nodup_cons.mp hnd).1 hmem)]
        rw [List.append_nil, List.filter_eq_self]
        intro r hr
        rw [decide_eq_true_eq]
        exact hchunk g (List.mem_cons_self _ _) r hr
      · have hhead : (chunk g).filter (fun r => decide (keyf r = g0)) = [] := by
          rw [List.filter_eq_nil_iff]
          intro r hr hdec
          rw [decide_eq_true_eq] at hdec
          exact hgg ((hchunk g (List.mem_cons_self _ _) r hr).symm.trans hdec)
        rw [hhead, List.nil_append]
        by_cases hg0 : g0 ∈ gs
        · rw [if_pos hg0, if_pos (List.mem_cons_of_mem _ hg0)]
        · rw [if_neg hg0, if_neg (fun hmem => by
            rcases List.mem_cons.mp hmem with h | h
            · exact hgg h.symm
            · exact hg0 h)]

theorem groupStartAux_disjoint (lt : List LongRow) (minh : ℤ) :
    ∀ (gs : List (ℤ × ℤ)), gs.Nodup →
      ∀ g1 ∈ gs, ∀ g2 ∈ gs, g1 ≠ g2 →
        groupStartAux lt minh gs g1 + groupCount lt minh g1 ≤ groupStartAux lt minh gs g2
        ∨ groupStartAux lt minh gs g2 + groupCount lt minh g2 ≤ groupStartAux lt minh gs g1
  | [], _, g1, hg1, _, _, _ => absurd hg1 (List.not_mem_nil g1)
  | g :: gs, hnd, g1, hg1, g2, hg2, hne => by
      rw [groupStartAux, groupStartAux]
      by_cases h1 : g = g1
      · have hg2gs : g2 ∈ gs := by
          rcases List.mem_cons.mp hg2 with h | h
          · exact absurd (h1.symm.trans h.symm) hne
          · exact h
        have hcc : groupCount lt minh g = groupCount lt minh g1 := by rw [h1]
        rw [if_pos h1, if_neg (fun he => hne (h1.symm.trans he))]
        left
        omega
      · by_cases h2 : g = g2
        · have hg1gs : g1 ∈ gs := by
            rcases List.mem_cons.mp hg1 with h | h
            · exact absurd h.symm h1
            · exact h
          have hcc : groupCount lt minh g = groupCount lt minh g2 := by rw [h2]
          rw [if_neg h1, if_pos h2]
          right
          omega
        · have hg1gs : g1 ∈ gs := by
            rcases List.mem_cons.mp hg1 with h | h
            · exact absurd h.symm h1
            · exact h
          have hg2gs : g2 ∈ gs := by
            rcases List.mem_cons.mp hg2 with h | h
            · exact absurd h.symm h2
            · exact h
          rw [if_neg h1, if_neg h2]
          rcases groupStartAux_disjoint lt minh gs (List.nodup_cons.mp hnd).2
            g1 hg1gs g2 hg2gs hne with h | h
          · left
            omega
          · right
            omega

/-! ### Characterising the transform output -/

/-- The pivoted rows of a validated long table. -/
def pivotRowsOf (lt : List LongRow) : List WideRow :=
  buildWideRows lt (minHorizonOf lt) (maxHorizonOf lt) (pivotGroups lt) 0

/-- The number of horizon value columns. -/
def numHorizonsOf (lt : List LongRow) : ℕ := (maxHorizonOf lt + 1 - minHorizonOf lt).toNat

/-- One (key, reference-time) group of the pivoted table after its shuffle. -/
def groupChunk (lt : List LongRow) (bt : (ℤ × ℤ) → List WideRow → List (List ℚ))
    (rnds : (ℤ × ℤ) → ℕ → List ℚ) (g : ℤ × ℤ) : List WideRow :=
  shuffleGroupRows (numHorizonsOf lt)
    ((pivotRowsOf lt).filter (fun r => decide ((r.key, r.t) = g)))
    (bt g ((pivotRowsOf lt).filter (fun r => decide ((r.key, r.t) = g))))
    (rnds g)

/-- The concatenation of all shuffled groups (`map_groups` output). -/
def shuffledRowsOf (lt : List LongRow) (bt : (ℤ × ℤ) → List WideRow → List (List ℚ))
    (rnds : (ℤ × ℤ) → ℕ → List ℚ) : List WideRow :=
  (((pivotRowsOf lt).map (fun r => (r.key, r.t))).dedup).flatMap (groupChunk lt bt rnds)

/-- The long table `transform` would return were the argsort keyword binding
accepted: unpivot of the concatenated per-group shuffles of the pivot. -/
def intendedTransformOut (lt : List LongRow)
    (bt : (ℤ × ℤ) → List WideRow → List (List ℚ)) (rnds : (ℤ × ℤ) → ℕ → List ℚ) :
    List LongRow :=
  unpivot_horizon ⟨minHorizonOf lt, numHorizonsOf lt, shuffledRowsOf lt bt rnds⟩

theorem pivotRows_filter (lt : List LongRow) (g : ℤ × ℤ) (hg : g ∈ pivotGroups lt) :
    (pivotRowsOf lt).filter (fun r => decide ((r.key, r.t) = g))
      = makeGroupRows lt (minHorizonOf lt) (maxHorizonOf lt) g
          (groupStartAux lt (minHorizonOf lt) (pivotGroups lt) g) := by
  rw [pivotRowsOf,
    buildWideRows_filter_group lt (minHorizonOf lt) (maxHorizonOf lt) (pivotGroups lt) 0 g
      (List.nodup_dedup _) hg, Nat.zero_add]

theorem mem_wideGroups_iff (lt : List LongRow) (hne : lt ≠ [])
    (h1 : checkAllHorizons lt (minHorizonOf lt) (maxHorizonOf lt) = true) (g : ℤ × ℤ) :
    g ∈ ((pivotRowsOf lt).map (fun r => (r.key, r.t))).dedup ↔ g ∈ pivotGroups lt := by
  rw [List.mem_dedup, List.mem_map]
  constructor
  · rintro ⟨r, hr, hrg⟩
    rw [← hrg]
    exact mem_buildWideRows_group lt (minHorizonOf lt) (maxHorizonOf lt) (pivotGroups lt) 0 r hr
  · intro hg
    have hfl := pivotRows_filter lt g hg
    have hlen : 0 < (makeGroupRows lt (minHorizonOf lt) (maxHorizonOf lt) g
        (groupStartAux lt (minHorizonOf lt) (pivotGroups lt) g)).length := by
      rw [makeGroupRows, List.length_map, List.length_range]
      exact checkAllHorizons_pos lt h1 g hg (minHorizonOf lt)
        (minHorizon_mem_horizonList lt hne)
    rw [← hfl] at hlen
    obtain ⟨r, hr⟩ := List.exists_mem_of_length_pos hlen
    obtain ⟨hrmem, hrg⟩ := List.mem_filter.mp hr
    rw [decide_eq_true_eq] at hrg
    exact ⟨r, hrmem, hrg⟩

theorem mem_groupChunk_group (lt : List LongRow)
    (bt : (ℤ × ℤ) → List WideRow → List (List ℚ)) (rnds : (ℤ × ℤ) → ℕ → List ℚ)
    (g : ℤ × ℤ) (r : WideRow) (hr : r ∈ groupChunk lt bt rnds g) :
    (r.key, r.t) = g := by
  rw [groupChunk] at hr
  obtain ⟨j, hj, hk, ht, _⟩ := mem_shuffleGroupRows _ _ _ _ r hr
  have hmem : ((pivotRowsOf lt).filter (fun r => decide ((r.key, r.t) = g))).getD j
      ⟨0, 0, 0, []⟩ ∈ (pivotRowsOf lt).filter (fun r => decide ((r.key, r.t) = g)) := by
    rw [getD_eq_getElem_of_lt _ _ hj]
    exact List.getElem_mem hj
  have hg := (List.mem_filter.mp hmem).2
  rw [decide_eq_true_eq] at hg
  rw [hk, ht]
  exact hg

theorem shuffledRows_filter (lt : List LongRow) (hne : lt ≠ [])
    (h1 : checkAllHorizons lt (minHorizonOf lt) (maxHorizonOf lt) = true)
    (bt : (ℤ × ℤ) → List WideRow → List (List ℚ)) (rnds : (ℤ × ℤ) → ℕ → List ℚ)
    (g0 : ℤ × ℤ) :
    (shuffledRowsOf lt bt rnds).filter (fun r => decide ((r.key, r.t) = g0))
      = if g0 ∈ pivotGroups lt then groupChunk lt bt rnds g0 else [] := by
  rw [shuffledRowsOf]
  have h3 := flatMap_filter_group (groupChunk lt bt rnds) (fun r => (r.key, r.t)) g0
    (((pivotRowsOf lt).map (fun r => (r.key, r.t))).dedup) (List.nodup_dedup _)
    (fun g _ r hr => mem_groupChunk_group lt bt rnds g r hr)
  rw [h3]
  by_cases hg0 : g0 ∈ pivotGroups lt
  · rw [if_pos ((mem_wideGroups_iff lt hne h1 g0).mpr hg0), if_pos hg0]
  · rw [if_neg (fun hmem => hg0 ((mem_wideGroups_iff lt hne h1 g0).mp hmem)), if_neg hg0]

theorem out_groupHorizonRows (lt : List LongRow) (hne : lt ≠ [])
    (h1 : checkAllHorizons lt (minHorizonOf lt) (maxHorizonOf lt) = true)
    (bt : (ℤ × ℤ) → List WideRow → List (List ℚ)) (rnds : (ℤ × ℤ) → ℕ → List ℚ)
    (k t : ℤ) (i : ℕ) (hi : i < numHorizonsOf lt) :
    groupHorizonRows
        (unpivot_horizon ⟨minHorizonOf lt, numHorizonsOf lt, shuffledRowsOf lt bt rnds⟩)
        (k, t) (minHorizonOf lt + (i : ℤ))
      = if (k, t) ∈ pivotGroups lt
        then (groupChunk lt bt rnds (k, t)).map
          (fun r => ⟨k, t, minHorizonOf lt + (i : ℤ), r.s, r.vals.getD i 0⟩)
        else [] := by
  rw [groupHorizonRows, unpivot_filter_at (minHorizonOf lt) (numHorizonsOf lt) _ k t i hi,
    shuffledRows_filter lt hne h1 bt rnds (k, t)]
  by_cases hg : (k, t) ∈ pivotGroups lt
  · rw [if_pos hg, if_pos hg]
  · rw [if_neg hg, if_neg hg, List.map_nil]

theorem chunk_values_perm (lt : List LongRow) (hne : lt ≠ [])
    (h1 : checkAllHorizons lt (minHorizonOf lt) (maxHorizonOf lt) = true)
    (h2 : checkEqualCounts lt = true)
    (bt : (ℤ × ℤ) → List WideRow → List (List ℚ)) (rnds : (ℤ × ℤ) → ℕ → List ℚ)
    (hbt : ∀ g rows2, (bt g rows2).length = rows2.length)
    (g : ℤ × ℤ) (hg : g ∈ pivotGroups lt) (i : ℕ) (hi : i < numHorizonsOf lt) :
    ((groupChunk lt bt rnds g).map (fun r => r.vals.getD i 0)).Perm
      (valuesAt lt g.1 g.2 (minHorizonOf lt + (i : ℤ))) := by
  have hhz : minHorizonOf lt + (i : ℤ) ∈ horizonList (minHorizonOf lt) (maxHorizonOf lt) := by
    rw [horizonList_mem]
    rw [numHorizonsOf] at hi
    omega
  have hcnt : hCount lt g (minHorizonOf lt + (i : ℤ)) = groupCount lt (minHorizonOf lt) g :=
    hCount_eq_groupCount lt hne h1 h2 g hg _ hhz
  rw [groupChunk, shuffleGroupRows_map_val _ _ _ _ i hi]
  have hlen : (tmplColumn
      (bt g ((pivotRowsOf lt).filter (fun r => decide ((r.key, r.t) = g)))) i).length
      = (wideColumn ((pivotRowsOf lt).filter (fun r => decide ((r.key, r.t) = g))) i).length := by
    rw [tmplColumn, wideColumn, List.length_map, List.length_map, hbt]
  have heq : wideColumn ((pivotRowsOf lt).filter (fun r => decide ((r.key, r.t) = g))) i
      = valuesAt lt g.1 g.2 (minHorizonOf lt + (i : ℤ)) := by
    rw [wideColumn, pivotRows_filter lt g hg,
      makeGroupRows_map_val lt (minHorizonOf lt) (maxHorizonOf lt) g _ i
        (by rw [horizonList_length]; exact hi) hcnt]
    rfl
  rw [← heq]
  exact shuffleColumn_perm _ _ _ hlen

theorem chunk_ids (lt : List LongRow)
    (bt : (ℤ × ℤ) → List WideRow → List (List ℚ)) (rnds : (ℤ × ℤ) → ℕ → List ℚ)
    (g : ℤ × ℤ) (hg : g ∈ pivotGroups lt) :
    (groupChunk lt bt rnds g).map (fun r => r.s)
      = (List.range (groupCount lt (minHorizonOf lt) g)).map
          (fun (j : ℕ) => ((groupStart lt g + j : ℕ) : ℤ)) := by
  rw [groupChunk, shuffleGroupRows_map_s, pivotRows_filter lt g hg, makeGroupRows_map_s,
    groupStart]

theorem out_values_nil_of_not_mem_range (lt : List LongRow)
    (bt : (ℤ × ℤ) → List WideRow → List (List ℚ)) (rnds : (ℤ × ℤ) → ℕ → List ℚ)
    (k t hz : ℤ) (hhz : hz ∉ horizonList (minHorizonOf lt) (maxHorizonOf lt)) :
    groupHorizonRows
      (unpivot_horizon ⟨minHorizonOf lt, numHorizonsOf lt, shuffledRowsOf lt bt rnds⟩)
      (k, t) hz = [] := by
  rw [groupHorizonRows, List.filter_eq_nil_iff]
  intro r hr hdec
  rw [decide_eq_true_eq] at hdec
  obtain ⟨rw0, _, j, hj, hjr⟩ := (mem_unpivot_iff _ _ _ r).mp hr
  apply hhz
  rw [← hdec.2, hjr]
  show minHorizonOf lt + (j : ℤ) ∈ _
  rw [horizonList_mem]
  rw [numHorizonsOf] at hj
  omega

theorem lt_values_nil_of_not_mem_range (lt : List LongRow) (k t hz : ℤ)
    (hhz : hz ∉ horizonList (minHorizonOf lt) (maxHorizonOf lt)) :
    groupHorizonRows lt (k, t) hz = [] := by
  rw [groupHorizonRows, List.filter_eq_nil_iff]
  intro r hr hdec
  rw [decide_eq_true_eq] at hdec
  exact hhz (hdec.2 ▸ row_h_mem_horizonList lt r hr)

theorem lt_values_nil_of_not_group (lt : List LongRow) (k t hz : ℤ)
    (hg : (k, t) ∉ pivotGroups lt) :
    groupHorizonRows lt (k, t) hz = [] := by
  rw [groupHorizonRows, List.filter_eq_nil_iff]
  intro r hr hdec
  rw [decide_eq_true_eq] at hdec
  exact hg ((mem_pivotGroups_iff lt (k, t)).mpr ⟨r, hr, hdec.1⟩)

theorem transform_long_typeerror (lt : List LongRow)
    (bt : (ℤ × ℤ) → List WideRow → List (List ℚ)) (rnds : (ℤ × ℤ) → ℕ → List ℚ)
    (w : WideTable) (hok : pivot_horizon lt = .ok w) :
    transform_long lt bt rnds = .error argsortTypeError := by
  obtain ⟨hne, h1, h2, hw⟩ := (pivot_horizon_ok_iff lt w).mp hok
  obtain ⟨r, hr⟩ : ∃ r : LongRow, r ∈ lt := by
    cases lt with
    | nil => exact absurd rfl hne
    | cons a as => exact ⟨a, List.mem_cons_self a as⟩
  have hmin : minHorizonOf lt ≤ r.h := intListMin_le _ _ (List.mem_map.mpr ⟨r, hr, rfl⟩)
  have hmax : r.h ≤ maxHorizonOf lt := le_intListMax _ _ (List.mem_map.mpr ⟨r, hr, rfl⟩)
  have hnum : w.numHorizons ≠ 0 := by
    rw [hw]
    show (maxHorizonOf lt + 1 - minHorizonOf lt).toNat ≠ 0
    omega
  have hgpg : (r.key, r.t) ∈ pivotGroups lt := by
    rw [pivotGroups, List.mem_dedup]
    exact List.mem_map.mpr ⟨r, hr, rfl⟩
  have hgw : (r.key, r.t) ∈ (w.rows.map (fun r2 => (r2.key, r2.t))).dedup := by
    rw [hw]
    exact (mem_wideGroups_iff lt hne h1 (r.key, r.t)).mpr hgpg
  have hTG : transformGroups w.numHorizons w.rows bt rnds
      ((w.rows.map (fun r2 => (r2.key, r2.t))).dedup) = .error argsortTypeError := by
    cases hgl : (w.rows.map (fun r2 => (r2.key, r2.t))).dedup with
    | nil =>
        rw [hgl] at hgw
        exact absurd hgw (List.not_mem_nil _)
    | cons g gs => exact transformGroups_error w.numHorizons w.rows bt rnds g gs hnum
  rw [transform_long, hok]
  show (match transformGroups w.numHorizons w.rows bt rnds
      ((w.rows.map (fun r2 => (r2.key, r2.t))).dedup) with
    | .error e => .error e
    | .ok srows => .ok (unpivot_horizon ⟨w.minHorizon, w.numHorizons, srows⟩)
    : Except String (List LongRow))
    = .error argsortTypeError
  rw [hTG]

/-- C7 (code bug): the output contract speaks of the table `transform`
returns, but for every input that passes pivot validation `transform` raises
the argsort `TypeError` inside `_apply_shuffle` on its first
(key, reference-time) group (the `rng` keyword never binds, util.py line 4
versus dependence.py line 176) and returns no table.  The table the pipeline
would otherwise produce — the unpivot of the per-group shuffled pivot — does
satisfy the contract: cell by cell the value column's contents are a
permutation of the input's (never altered), the sample ids form the dense,
group-scoped blocks assigned by the pivot (each id appearing once per
horizon), ids are globally unique across groups, and the rows carry exactly
the input's fields; the contract fails only through the crash. -/
theorem transform_typeerror_output_contract (lt : List LongRow)
    (bt : (ℤ × ℤ) → List WideRow → List (List ℚ)) (rnds : (ℤ × ℤ) → ℕ → List ℚ)
    (w : WideTable) (hok : pivot_horizon lt = .ok w)
    (hbt : ∀ g rows2, (bt g rows2).length = rows2.length) :
    transform_long lt bt rnds = .error argsortTypeError
    ∧ (∀ k t hz : ℤ, (valuesAt (intendedTransformOut lt bt rnds) k t hz).Perm
        (valuesAt lt k t hz))
    ∧ (∀ g ∈ pivotGroups lt, ∀ hz ∈ horizonList (minHorizonOf lt) (maxHorizonOf lt),
        (groupHorizonRows (intendedTransformOut lt bt rnds) g hz).map (fun r => r.s)
          = (List.range (groupCount lt (minHorizonOf lt) g)).map
              (fun (j : ℕ) => ((groupStart lt g + j : ℕ) : ℤ)))
    ∧ (∀ r1 ∈ intendedTransformOut lt bt rnds, ∀ r2 ∈ intendedTransformOut lt bt rnds,
        r1.s = r2.s → rowGroup r1 = rowGroup r2) := by
  obtain ⟨hne, h1, h2, hw⟩ := (pivot_horizon_ok_iff lt w).mp hok
  rw [intendedTransformOut]
  refine ⟨transform_long_typeerror lt bt rnds w hok, ?_, ?_, ?_⟩
  · intro k t hz
    by_cases hhz : hz ∈ horizonList (minHorizonOf lt) (maxHorizonOf lt)
    · have hb := (horizonList_mem (minHorizonOf lt) (maxHorizonOf lt) hz).mp hhz
      have hzi : hz = minHorizonOf lt + (((hz - minHorizonOf lt).toNat : ℕ) : ℤ) := by omega
      have hiH : (hz - minHorizonOf lt).toNat < numHorizonsOf lt := by
        rw [numHorizonsOf]
        omega
      rw [valuesAt, valuesAt, hzi,
        out_groupHorizonRows lt hne h1 bt rnds k t _ hiH]
      by_cases hg : (k, t) ∈ pivotGroups lt
      · rw [if_pos hg, List.map_map]
        exact chunk_values_perm lt hne h1 h2 bt rnds hbt (k, t) hg _ hiH
      · rw [if_neg hg, lt_values_nil_of_not_group lt k t _ hg]
    · rw [valuesAt, valuesAt, out_values_nil_of_not_mem_range lt bt rnds k t hz hhz,
        lt_values_nil_of_not_mem_range lt k t hz hhz]
  · intro g hg hz hhz
    obtain ⟨k, t⟩ := g
    have hb := (horizonList_mem (minHorizonOf lt) (maxHorizonOf lt) hz).mp hhz
    have hzi : hz = minHorizonOf lt + (((hz - minHorizonOf lt).toNat : ℕ) : ℤ) := by omega
    have hiH : (hz - minHorizonOf lt).toNat < numHorizonsOf lt := by
      rw [numHorizonsOf]
      omega
    rw [hzi, out_groupHorizonRows lt hne h1 bt rnds k t _ hiH, if_pos hg, List.map_map]
    exact chunk_ids lt bt rnds (k, t) hg
  · intro r1 hr1 r2 hr2 hs
    obtain ⟨rw1, hrw1, j1, hj1, hjr1⟩ := (mem_unpivot_iff _ _ _ r1).mp hr1
    obtain ⟨rw2, hrw2, j2, hj2, hjr2⟩ := (mem_unpivot_iff _ _ _ r2).mp hr2
    rw [shuffledRowsOf] at hrw1 hrw2
    obtain ⟨g1, hg1w, hrc1⟩ := List.mem_flatMap.mp hrw1
    obtain ⟨g2, hg2w, hrc2⟩ := List.mem_flatMap.mp hrw2
    have hg1 : g1 ∈ pivotGroups lt := (mem_wideGroups_iff lt hne h1 g1).mp hg1w
    have hg2 : g2 ∈ pivotGroups lt := (mem_wideGroups_iff lt hne h1 g2).mp hg2w
    have hgrp1 : (rw1.key, rw1.t) = g1 := mem_groupChunk_group lt bt rnds g1 rw1 hrc1
    have hgrp2 : (rw2.key, rw2.t) = g2 := mem_groupChunk_group lt bt rnds g2 rw2 hrc2
    have hsb1 : rw1.s ∈ (groupChunk lt bt rnds g1).map (fun r => r.s) :=
      List.mem_map.mpr ⟨rw1, hrc1, rfl⟩
    have hsb2 : rw2.s ∈ (groupChunk lt bt rnds g2).map (fun r => r.s) :=
      List.mem_map.mpr ⟨rw2, hrc2, rfl⟩
    rw [chunk_ids lt bt rnds g1 hg1] at hsb1
    rw [chunk_ids lt bt rnds g2 hg2] at hsb2
    obtain ⟨jj1, hjj1, hse1⟩ := List.mem_map.mp hsb1
    obtain ⟨jj2, hjj2, hse2⟩ := List.mem_map.mp hsb2
    have hjj1' := List.mem_range.mp hjj1
    have hjj2' := List.mem_range.mp hjj2
    by_cases hgg : g1 = g2
    · rw [hjr1, hjr2]
      show (rw1.key, rw1.t) = (rw2.key, rw2.t)
      rw [hgrp1, hgrp2, hgg]
    · exfalso
      have hdisj := groupStartAux_disjoint lt (minHorizonOf lt) (pivotGroups lt)
        (List.nodup_dedup _) g1 hg1 g2 hg2 hgg
      have hs' : rw1.s = rw2.s := by
        rw [hjr1, hjr2] at hs
        exact hs
      rw [← hse1, ← hse2] at hs'
      have hnat : groupStart lt g1 + jj1 = groupStart lt g2 + jj2 := by
        exact_mod_cast hs'
      rw [groupStart, groupStart] at hnat
      omega

/-- One group with one sample at each of two horizons. -/
def ltTransformEx : List LongRow := [⟨0, 0, 1, 0, 5⟩, ⟨0, 0, 2, 1, 6⟩]

def wTransformEx : WideTable := ⟨1, 2, [⟨0, 0, 0, [5, 6]⟩]⟩

theorem transform_typeerror_output_contract_witness :
    (pivot_horizon ltTransformEx = .ok wTransformEx
      ∧ (∀ (g : ℤ × ℤ) (rows2 : List WideRow),
          ((fun (_ : ℤ × ℤ) (rows2 : List WideRow) => rows2.map (fun r => r.vals)) g rows2).length
            = rows2.length))
    ∧ (transform_long ltTransformEx (fun _ rows2 => rows2.map (fun r => r.vals))
          (fun _ _ => []) = .error argsortTypeError
      ∧ (∀ k t hz : ℤ,
          (valuesAt (intendedTransformOut ltTransformEx
              (fun _ rows2 => rows2.map (fun r => r.vals)) (fun _ _ => [])) k t hz).Perm
            (valuesAt ltTransformEx k t hz))
      ∧ (∀ g ∈ pivotGroups ltTransformEx,
          ∀ hz ∈ horizonList (minHorizonOf ltTransformEx) (maxHorizonOf ltTransformEx),
          (groupHorizonRows (intendedTransformOut ltTransformEx
              (fun _ rows2 => rows2.map (fun r => r.vals)) (fun _ _ => [])) g hz).map
                (fun r => r.s)
            = (List.range (groupCount ltTransformEx (minHorizonOf ltTransformEx) g)).map
                (fun (j : ℕ) => ((groupStart ltTransformEx g + j : ℕ) : ℤ)))
      ∧ (∀ r1 ∈ intendedTransformOut ltTransformEx
            (fun _ rows2 => rows2.map (fun r => r.vals)) (fun _ _ => []),
          ∀ r2 ∈ intendedTransformOut ltTransformEx
            (fun _ rows2 => rows2.map (fun r => r.vals)) (fun _ _ => []),
          r1.s = r2.s → rowGroup r1 = rowGroup r2)) := by
  have h1 : pivot_horizon ltTransformEx = .ok wTransformEx := by rfl
  have h2 := transform_typeerror_output_contract ltTransformEx
      (fun _ rows2 => rows2.map (fun r => r.vals)) (fun _ _ => [])
      wTransformEx h1 (fun _ rows2 => List.length_map rows2 _)
  exact ⟨⟨h1, fun _ rows2 => List.length_map rows2 _⟩, h2⟩

/-! ### metrics.marginal_pit

Tables are lists of (unit key, column values) rows; `marginal_pit` joins model
output to observations on the key columns, groups by key, and for each
prediction/observation column pair computes the mean of the boolean column
`pred_c <= obs_c` (the fraction of samples at or below the observed value).
-/

/-- The inner join `model_out_wide.join(obs_data_wide, on=key_cols)`. -/
def pitJoined (model obs : List (ℤ × List ℚ)) : List (ℤ × List ℚ × List ℚ) :=
  model.flatMap (fun m =>
    (obs.filter (fun o => decide (o.1 = m.1))).map (fun o => (m.1, m.2, o.2)))

/-- The distinct unit keys of the joined table (`group_by(key_cols)`). -/
def pitKeys (model obs : List (ℤ × List ℚ)) : List ℤ :=
  ((pitJoined model obs).map (fun r => r.1)).dedup

/-- The mean of `pred_c <= obs_c` over one unit's joined rows
(`(pl.col(pred_c) <= pl.col(obs_c)).mean()`). -/
def pitFraction (grp : List (List ℚ × List ℚ)) (j : ℕ) : ℚ :=
  (grp.countP (fun pr => decide (pr.1.getD j 0 ≤ pr.2.getD j 0)) : ℚ) / (grp.length : ℚ)

/-- Embedding of `metrics.marginal_pit`: one output row per joined unit key,
with the `ncols` per-column fractions of samples at or below the matched
observed value (the `pit_{pred_col}` columns). -/
def marginal_pit (model obs : List (ℤ × List ℚ)) (ncols : ℕ) : List (ℤ × List ℚ) :=
  (pitKeys model obs).map (fun k =>
    (k, (List.range ncols).map (fun j =>
      pitFraction
        (((pitJoined model obs).filter (fun r => decide (r.1 = k))).map (fun r => r.2)) j)))

theorem obs_filter_eq_singleton : ∀ (obs : List (ℤ × List ℚ)) (k : ℤ) (os : List ℚ),
    (obs.map Prod.fst).Nodup → (k, os) ∈ obs →
    obs.filter (fun o => decide (o.1 = k)) = [(k, os)]
  | [], k, _, _, hk => absurd hk (List.not_mem_nil _)
  | o :: obs, k, os, hnd, hk => by
      rw [List.map_cons, List.nodup_cons] at hnd
      by_cases ho : o.1 = k
      · have hoeq : o = (k, os) := by
          rcases List.mem_cons.mp hk with h | h
          · exact h.symm
          · exact absurd (List.mem_map.mpr ⟨(k, os), h, ho.symm⟩) hnd.1
        subst hoeq
        rw [List.filter_cons_of_pos (by rw [decide_eq_true_eq])]
        have htail : obs.filter (fun o => decide (o.1 = k)) = [] := by
          rw [List.filter_eq_nil_iff]
          intro o2 ho2 hdec
          rw [decide_eq_true_eq] at hdec
          exact hnd.1 (List.mem_map.mpr ⟨o2, ho2, hdec.trans ho.symm⟩)
        rw [htail]
      · have hkobs : (k, os) ∈ obs := by
          rcases List.mem_cons.mp hk with h | h
          · exact absurd (congrArg Prod.fst h.symm) ho
          · exact h
        rw [List.filter_cons_of_neg (by rw [decide_eq_true_eq]; exact ho)]
        exact obs_filter_eq_singleton obs k os hnd.2 hkobs

theorem pitJoined_filter (model obs : List (ℤ × List ℚ)) (k : ℤ) (os : List ℚ)
    (hnd : (obs.map Prod.fst).Nodup) (hko : (k, os) ∈ obs) :
    ((pitJoined model obs).filter (fun r => decide (r.1 = k))).map (fun r => r.2)
      = (model.filter (fun m => decide (m.1 = k))).map (fun m => (m.2, os)) := by
  induction model with
  | nil => rfl
  | cons m model ih =>
      rw [pitJoined, List.flatMap_cons, List.filter_append, List.map_append, ← pitJoined, ih]
      by_cases hm : m.1 = k
      · rw [hm, obs_filter_eq_singleton obs k os hnd hko, List.map_cons, List.map_nil,
          List.filter_cons_of_pos (by rw [decide_eq_true_eq]),
          List.filter_cons_of_pos (by rw [decide_eq_true_eq]; exact hm)]
        rfl
      · have hhead : (((obs.filter (fun o => decide (o.1 = m.1))).map
            (fun o => (m.1, m.2, o.2))).filter (fun r => decide (r.1 = k))) = [] := by
          rw [List.filter_eq_nil_iff]
          intro r hr hdec
          rw [decide_eq_true_eq] at hdec
          obtain ⟨o, _, hor⟩ := List.mem_map.mp hr
          apply hm
          rw [← hdec, ← hor]
        rw [hhead, List.map_nil, List.nil_append,
          List.filter_cons_of_neg (by rw [decide_eq_true_eq]; exact hm)]

/-- C8: `marginal_pit` returns one row per joined observational unit (unit
keys are distinct), and the row for unit `k` holds, for each prediction
column, the fraction of that unit's samples whose value is at most the
matched observed value. -/
theorem marginal_pit_fraction (model obs : List (ℤ × List ℚ)) (ncols : ℕ)
    (k : ℤ) (os : List ℚ)
    (hnd : (obs.map Prod.fst).Nodup) (hko : (k, os) ∈ obs) (hkm : k ∈ model.map Prod.fst) :
    ((marginal_pit model obs ncols).map Prod.fst).Nodup
    ∧ (marginal_pit model obs ncols).find? (fun p => p.1 == k)
        = some (k, (List.range ncols).map (fun j =>
            ((model.filter (fun m => decide (m.1 = k))).countP
              (fun m => decide (m.2.getD j 0 ≤ os.getD j 0)) : ℚ)
            / ((model.filter (fun m => decide (m.1 = k))).length : ℚ))) := by
  have hmapfst : (marginal_pit model obs ncols).map Prod.fst = pitKeys model obs := by
    rw [marginal_pit, List.map_map]
    exact (List.map_congr_left (fun a _ => rfl)).trans (List.map_id _)
  constructor
  · rw [hmapfst]
    exact List.nodup_dedup _
  · obtain ⟨m, hmmem, hm1⟩ := List.mem_map.mp hkm
    have hkmem : k ∈ pitKeys model obs := by
      rw [pitKeys, List.mem_dedup]
      refine List.mem_map.mpr ⟨(m.1, m.2, os), ?_, hm1⟩
      rw [pitJoined]
      refine List.mem_flatMap.mpr ⟨m, hmmem, ?_⟩
      refine List.mem_map.mpr ⟨(k, os), ?_, ?_⟩
      · exact List.mem_filter.mpr ⟨hko, by rw [decide_eq_true_eq]; exact hm1.symm⟩
      · rfl
    rw [marginal_pit, List.find?_map]
    have hfind : (pitKeys model obs).find?
        ((fun (p : ℤ × List ℚ) => p.1 == k) ∘ (fun k2 =>
          (k2, (List.range ncols).map (fun j =>
            pitFraction (((pitJoined model obs).filter (fun r => decide (r.1 = k2))).map
              (fun r => r.2)) j)))) = some k := by
      have hsome : ((pitKeys model obs).find?
          ((fun (p : ℤ × List ℚ) => p.1 == k) ∘ (fun k2 =>
            (k2, (List.range ncols).map (fun j =>
              pitFraction (((pitJoined model obs).filter (fun r => decide (r.1 = k2))).map
                (fun r => r.2)) j))))).isSome := by
        rw [List.find?_isSome]
        exact ⟨k, hkmem, by simp⟩
      obtain ⟨x, hx⟩ := Option.isSome_iff_exists.mp hsome
      have hxk := List.find?_some hx
      simp only [Function.comp_apply, beq_iff_eq] at hxk
      rw [hx, hxk]
    rw [hfind]
    refine congrArg some (congrArg (Prod.mk k) ?_)
    apply List.map_congr_left
    intro j _
    rw [pitFraction, pitJoined_filter model obs k os hnd hko, List.countP_map, List.length_map]
    rfl

/-- One hundred samples for unit 0: a permutation (descending) of the linear
sequence 0, 1, ..., 99. -/
def pitModelEx : List (ℤ × List ℚ) :=
  (List.range 100).map (fun n => ((0 : ℤ), [((99 - n : ℕ) : ℚ)]))

/-- The matched observation 44: exactly 45 of the 100 samples (0 through 44)
lie at or below it, so the returned fraction is 45/100 = 0.45. -/
def pitObsEx : List (ℤ × List ℚ) := [((0 : ℤ), [(44 : ℚ)])]

theorem marginal_pit_fraction_witness :
    ((pitObsEx.map Prod.fst).Nodup ∧ ((0 : ℤ), [(44 : ℚ)]) ∈ pitObsEx
      ∧ (0 : ℤ) ∈ pitModelEx.map Prod.fst
      ∧ (pitModelEx.filter (fun m => decide (m.1 = (0 : ℤ)))).countP
          (fun m => decide (m.2.getD 0 0 ≤ ([(44 : ℚ)] : List ℚ).getD 0 0)) = 45
      ∧ (pitModelEx.filter (fun m => decide (m.1 = (0 : ℤ)))).length = 100)
    ∧ (((marginal_pit pitModelEx pitObsEx 1).map Prod.fst).Nodup
      ∧ (marginal_pit pitModelEx pitObsEx 1).find? (fun p => p.1 == (0 : ℤ))
          = some ((0 : ℤ), (List.range 1).map (fun j =>
              ((pitModelEx.filter (fun m => decide (m.1 = (0 : ℤ)))).countP
                (fun m => decide (m.2.getD j 0 ≤ ([(44 : ℚ)] : List ℚ).getD j 0)) : ℚ)
              / ((pitModelEx.filter (fun m => decide (m.1 = (0 : ℤ)))).length : ℚ)))) :=
  ⟨⟨by decide, by decide, by decide, by decide, by decide⟩,
    marginal_pit_fraction pitModelEx pitObsEx 1 0 [(44 : ℚ)]
      (by decide) (by decide) (by decide)⟩

/-! ### metrics.energy_score

`energy_score` joins model output to observations on the key columns and
computes, per observational unit, the energy score of Eq. (7) of Gneiting et
al. (2008): the mean distance from each predictive sample to the unit's
observed vector, minus half the mean pairwise distance between samples. A
unit with any null among its predicted or observed values gets `np.nan`
instead; with `reduce_mean=True` the per-unit scores are averaged after
`fill_nan(None)`, i.e. over the non-missing scores only. Values are
`Option ℚ` (null is `none`); scores are `Option ℝ` (missing is `none`). -/

/-- The inner join `model_out_wide.join(obs_data_wide, on=key_cols)` for the
energy score tables. -/
def esJoined (model obs : List (ℤ × List (Option ℚ))) :
    List (ℤ × List (Option ℚ) × List (Option ℚ)) :=
  model.flatMap (fun m =>
    (obs.filter (fun o => decide (o.1 = m.1))).map (fun o => (m.1, m.2, o.2)))

/-- The distinct unit keys of the joined table (`group_by(*key_cols)`). -/
def esKeys (model obs : List (ℤ × List (Option ℚ))) : List ℤ :=
  ((esJoined model obs).map (fun r => r.1)).dedup

/-- One unit's joined rows, as (predicted sample vector, observed vector)
pairs: the group handed to `energy_score_one_unit`. -/
def esGroup (model obs : List (ℤ × List (Option ℚ))) (k : ℤ) :
    List (List (Option ℚ) × List (Option ℚ)) :=
  ((esJoined model obs).filter (fun r => decide (r.1 = k))).map (fun r => r.2)

/-- `df[pred_cols + obs_cols].null_count().to_numpy().sum() > 0`: whether any
predicted or observed value of the unit is null. -/
def hasNull (grp : List (List (Option ℚ) × List (Option ℚ))) : Bool :=
  grp.any (fun pr => pr.1.any Option.isNone || pr.2.any Option.isNone)

/-- Read a vector as numbers (only ever applied to null-free groups). -/
def stripNulls (l : List (Option ℚ)) : List ℚ := l.map (fun x => x.getD 0)

/-- Euclidean distance between two vectors (`sklearn.pairwise_distances`). -/
noncomputable def euclidDist (x y : List ℚ) : ℝ :=
  Real.sqrt (((x.zip y).map (fun p => ((p.1 : ℝ) - (p.2 : ℝ)) ^ 2)).sum)

/-- The score of one null-free unit:
`np.mean(pairwise_distances(df[pred_cols], df[0, obs_cols]))
 - 0.5 * np.mean(pairwise_distances(df[pred_cols]))`. -/
noncomputable def energyScoreUnit (grp : List (List (Option ℚ) × List (Option ℚ))) : ℝ :=
  ((grp.map (fun pr => euclidDist (stripNulls pr.1)
      (stripNulls (grp.getD 0 ([], [])).2))).sum) / (grp.length : ℝ)
  - (1 / 2) * ((grp.flatMap (fun p => grp.map (fun q =>
      euclidDist (stripNulls p.1) (stripNulls q.1)))).sum
    / ((grp.length : ℝ) * (grp.length : ℝ)))

/-- Embedding of `metrics.energy_score` with `reduce_mean=False`: one row per
joined unit key, with a missing score (`none`, the code's `np.nan`) exactly
when the unit has any null predicted or observed value. -/
noncomputable def energy_scores (model obs : List (ℤ × List (Option ℚ))) :
    List (ℤ × Option ℝ) :=
  (esKeys model obs).map (fun k =>
    (k, if hasNull (esGroup model obs k) then none
        else some (energyScoreUnit (esGroup model obs k))))

/-- Embedding of `metrics.energy_score` with `reduce_mean=True`:
`scores_by_unit["energy_score"].fill_nan(None).mean()`, the mean over the
non-missing per-unit scores (`none` when every score is missing). -/
noncomputable def energy_score_mean (model obs : List (ℤ × List (Option ℚ))) :
    Option ℝ :=
  if (((energy_scores model obs).map (fun p => p.2)).filterMap id).isEmpty
  then none
  else some ((((energy_scores model obs).map (fun p => p.2)).filterMap id).sum
    / (((((energy_scores model obs).map (fun p => p.2)).filterMap id)).length : ℝ))

/-- The claim's reading of the mean reduction: the scores of exactly the units
with no null values, in unit order. -/
noncomputable def completeUnitScores (model obs : List (ℤ × List (Option ℚ))) :
    List ℝ :=
  ((esKeys model obs).filter (fun k => !(hasNull (esGroup model obs k)))).map
    (fun k => energyScoreUnit (esGroup model obs k))

theorem filterMap_if_none {α β : Type} (p : α → Bool) (f : α → β) :
    ∀ l : List α,
      (l.map (fun a => if p a then none else some (f a))).filterMap id
        = (l.filter (fun a => !(p a))).map f
  | [] => rfl
  | a :: l => by
      by_cases hp : p a
      · rw [List.map_cons, if_pos hp,
          List.filterMap_cons_none (rfl : id (none : Option β) = none),
          List.filter_cons_of_neg (by rw [hp]; decide)]
        exact filterMap_if_none p f l
      · have hpf : p a = false := by
          cases hq : p a
          · rfl
          · exact absurd hq hp
        rw [List.map_cons, if_neg hp,
          List.filterMap_cons_some (rfl : id (some (f a)) = some (f a)),
          List.filter_cons_of_pos (by rw [hpf]; decide), List.map_cons,
          filterMap_if_none p f l]

/-- C9: a joined observational unit with any null predicted or observed value
gets a missing energy score (`none`, the code's `np.nan`) rather than an
error, and the `reduce_mean=True` result is the mean over exactly the
null-free units' scores (`none` when there is no null-free unit). -/
theorem energy_score_null_handling (model obs : List (ℤ × List (Option ℚ))) (k : ℤ)
    (hk : k ∈ esKeys model obs) (hnull : hasNull (esGroup model obs k) = true) :
    (energy_scores model obs).find? (fun p => p.1 == k) = some (k, none)
    ∧ energy_score_mean model obs
        = (if (completeUnitScores model obs).isEmpty then none
          else some ((completeUnitScores model obs).sum
            / ((completeUnitScores model obs).length : ℝ))) := by
  constructor
  · rw [energy_scores, List.find?_map]
    have hfind : (esKeys model obs).find?
        ((fun (p : ℤ × Option ℝ) => p.1 == k) ∘ (fun k2 =>
          (k2, if hasNull (esGroup model obs k2) then none
              else some (energyScoreUnit (esGroup model obs k2))))) = some k := by
      have hsome : ((esKeys model obs).find?
          ((fun (p : ℤ × Option ℝ) => p.1 == k) ∘ (fun k2 =>
            (k2, if hasNull (esGroup model obs k2) then none
                else some (energyScoreUnit (esGroup model obs k2)))))).isSome := by
        rw [List.find?_isSome]
        exact ⟨k, hk, by simp⟩
      obtain ⟨x, hx⟩ := Option.isSome_iff_exists.mp hsome
      have hxk := List.find?_some hx
      simp only [Function.comp_apply, beq_iff_eq] at hxk
      rw [hx, hxk]
    rw [hfind]
    exact congrArg some (congrArg (Prod.mk k) (if_pos hnull))
  · have hsc : ((energy_scores model obs).map (fun p => p.2)).filterMap id
        = completeUnitScores model obs := by
      have h1 := filterMap_if_none
        (fun k2 => hasNull (esGroup model obs k2))
        (fun k2 => energyScoreUnit (esGroup model obs k2)) (esKeys model obs)
      rw [energy_scores, List.map_map]
      exact h1
    rw [energy_score_mean, hsc]

/-- Three samples: unit 0 has a null in its second prediction column, unit 1
is null-free. -/
def esModelEx : List (ℤ × List (Option ℚ)) :=
  [((0 : ℤ), [some 1, none]),
   ((1 : ℤ), [some 1, some 2]),
   ((1 : ℤ), [some 2, some 3])]

/-- Null-free observations for both units. -/
def esObsEx : List (ℤ × List (Option ℚ)) :=
  [((0 : ℤ), [some 1, some 1]), ((1 : ℤ), [some 1, some 1])]

theorem energy_score_null_handling_witness :
    ((0 : ℤ) ∈ esKeys esModelEx esObsEx
      ∧ hasNull (esGroup esModelEx esObsEx 0) = true)
    ∧ ((energy_scores esModelEx esObsEx).find? (fun p => p.1 == (0 : ℤ))
        = some ((0 : ℤ), none)
      ∧ energy_score_mean esModelEx esObsEx
          = (if (completeUnitScores esModelEx esObsEx).isEmpty then none
            else some ((completeUnitScores esModelEx esObsEx).sum
              / ((completeUnitScores esModelEx esObsEx).length : ℝ)))) :=
  ⟨⟨by decide, by decide⟩,
    energy_score_null_handling esModelEx esObsEx 0 (by decide) (by decide)⟩
